import Mathlib

/-!
A shallow embedding of the `tracing_gc` crate (`src/lib.rs`): an arena-based
mark-and-sweep garbage collector with an intrusive doubly linked allocation
list, explicit roots, and handle indirection cells.

Modelling conventions:
* Raw pointers to `GcBox` are modelled as `Option Nat` ids (`none` = null).
* The Rust heap of boxes is an association list `Boxes`; the shared
  indirection cells (`GcAlloc` behind `Rc<UnsafeCell<_>>`) form a second
  association list `Cells` mapping a cell id to its `inner : Option Nat`.
  One allocation creates one box and one cell; both receive the same fresh
  numeric id (`Arena.fresh` counts up), which models the fixed pairing the
  code establishes in `Gc::new` and never changes.
* A handle `Gc<T>` is its cell id (a `Nat`); `Clone for Gc` shares the cell,
  so cloning is the identity on the id.
* A managed value is represented by the list of child handles its `Trace`
  implementation reports, in trace order (`children : List Nat` of cell
  ids); this is exactly the shape of the test suite's `Object` type
  (`Simple` = `[]`, `Container v` = `v`).
* A Rust panic is modelled as `Except.error msg`; loops that the Rust code
  runs on its intrusive list are given explicit fuel, and termination facts
  become fuel-sufficiency theorems.
-/

namespace TracingGc

/-- The header + value of one allocation: `GcBox<T>` from the source
(`mark`, `next`, `prev`, `alloc` backlink to the indirection cell) with the
value represented by the child handles its `trace` reports. The `meta`
vtable pointer needs no counterpart: dispatch is direct in the embedding. -/
structure GcBox where
  mark : Bool
  next : Option Nat
  prev : Option Nat
  alloc : Nat
  children : List Nat
  deriving Repr, DecidableEq

/-- The heap of live `GcBox` allocations, keyed by box id. -/
abbrev Boxes := List (Nat × GcBox)

/-- The heap of indirection cells (`GcAlloc`), keyed by cell id; the value
is the cell's `inner : Option<NonNull<GcBox>>`. -/
abbrev Cells := List (Nat × Option Nat)

/-- Reading a box pointer: first entry with the given id. -/
def hfind (bs : Boxes) (k : Nat) : Option GcBox :=
  match bs with
  | [] => none
  | (k', b) :: bs => if k = k' then some b else hfind bs k

/-- Mutating the box an id points at (no-op when the id is dangling). -/
def hmod (bs : Boxes) (k : Nat) (f : GcBox → GcBox) : Boxes :=
  match bs with
  | [] => []
  | (k', b) :: bs =>
    if k = k' then (k', f b) :: hmod bs k f else (k', b) :: hmod bs k f

/-- Dropping a box (`Box::from_raw` + drop in the sweep). -/
def herase (bs : Boxes) (k : Nat) : Boxes :=
  match bs with
  | [] => []
  | (k', b) :: bs => if k = k' then herase bs k else (k', b) :: herase bs k

/-- Reading a cell. -/
def cfind (cs : Cells) (k : Nat) : Option (Option Nat) :=
  match cs with
  | [] => none
  | (k', v) :: cs => if k = k' then some v else cfind cs k

/-- Overwriting a cell's `inner` (no-op when the cell id is unknown). -/
def cset (cs : Cells) (k : Nat) (v : Option Nat) : Cells :=
  match cs with
  | [] => []
  | (k', w) :: cs =>
    if k = k' then (k', v) :: cset cs k v else (k', w) :: cset cs k v

/-- Dereferencing a handle's cell: `(*gc.ptr.get()).inner`. A handle made
by the public API always has a cell, so a missing cell reads as collected. -/
def cellInner (cs : Cells) (h : Nat) : Option Nat :=
  match cfind cs h with
  | some (some n) => some n
  | _ => none

/-- The collection statistics returned by `Arena::collect`. -/
structure Collection where
  total : Nat
  collected : Nat
  deriving Repr, DecidableEq

/-- The arena (`start`, `roots`) together with the ambient Rust heap it
mutates (`boxes`, `cells`) and a freshness counter standing in for the
allocator. -/
structure Arena where
  start : Option Nat
  roots : List Nat
  boxes : Boxes
  cells : Cells
  fresh : Nat
  deriving DecidableEq

/-- `Arena::new`: empty list, empty roots (and an empty heap). -/
def Arena.new : Arena :=
  { start := none, roots := [], boxes := [], cells := [], fresh := 0 }

/-- `Gc::new` followed by `Arena::gc`: create a fresh box (unmarked, null
links, backlink to its own fresh cell), set the old head's `prev` to it,
set its `next` to the old head, and make it the new head. Returns the new
handle (its cell id). -/
def Arena.gc (a : Arena) (children : List Nat) : Arena × Nat :=
  let n := a.fresh
  let boxes0 : Boxes :=
    (n, { mark := false, next := none, prev := none, alloc := n, children }) :: a.boxes
  let boxes1 :=
    match a.start with
    | some s => hmod boxes0 s (fun b => { b with prev := some n })
    | none => boxes0
  let boxes2 := hmod boxes1 n (fun b => { b with next := a.start })
  ({ start := some n, roots := a.roots, boxes := boxes2,
     cells := (n, some n) :: a.cells, fresh := n + 1 }, n)

/-- `Arena::root`: allocate, then push the new box onto the roots vector. -/
def Arena.root (a : Arena) (children : List Nat) : Arena × Nat :=
  let p := a.gc children
  ({ p.1 with roots := p.1.roots ++ [p.2] }, p.2)

/-- `Arena::make_root`: read the handle's cell; if collected, do nothing;
otherwise push the box onto the roots unless some existing entry is
pointer-equal to it. -/
def Arena.make_root (a : Arena) (h : Nat) : Arena :=
  match cellInner a.cells h with
  | none => a
  | some n =>
    if a.roots.any (fun p => p = n) then a
    else { a with roots := a.roots ++ [n] }

/-- `Arena::unroot`: rebuild the roots vector, keeping entries not
pointer-equal to `(*gc.ptr.get()).inner.unwrap()`. The `unwrap` runs inside
the filter closure, once per existing root entry: with an empty roots
vector it never runs, otherwise a collected handle panics (`none`). -/
def Arena.unroot (a : Arena) (h : Nat) : Option Arena :=
  match a.roots with
  | [] => some { a with roots := [] }
  | _ :: _ =>
    match cellInner a.cells h with
    | none => none
    | some n => some { a with roots := a.roots.filter (fun p => ¬ p = n) }

/-- `ArenaIter::next`, iterated: each step captures the current box's
successor (`self.cur = t.next()`) before yielding the box, then follows it.
`fuel` bounds the walk; a null (or dangling) pointer ends it. -/
def iterList (bs : Boxes) : Nat → Option Nat → List Nat
  | 0, _ => []
  | _ + 1, none => []
  | fuel + 1, some t =>
    match hfind bs t with
    | none => []
    | some b => t :: iterList bs fuel b.next

/-- The first `collect` pass: walk the list, `unmark` each box and count it
(`col.total += 1`). -/
def unmarkLoop (bs : Boxes) : Nat → Option Nat → Nat → Boxes × Nat
  | 0, _, total => (bs, total)
  | _ + 1, none, total => (bs, total)
  | fuel + 1, some t, total =>
    match hfind bs t with
    | none => (bs, total)
    | some b =>
      unmarkLoop (hmod bs t (fun bb => { bb with mark := false })) fuel b.next (total + 1)

/-- Panic message for `Option::unwrap` on `None` (raised by
`Visitor::visit` and `Arena::unroot` on a collected handle). -/
def unwrapMsg : String :=
  "called Option::unwrap() on a None value"

/-- The mark recursion: `Visitor::visit` inlined into the loop a value's
`trace(visitor)` runs over its child handles. For each handle in the
worklist: unwrap its cell (panicking when the cell is empty), skip it when
its box is already marked, otherwise set the mark bit first and only then
recurse into that value's own children, before continuing with the rest.
Each processed handle consumes one unit of `fuel`; `none` is fuel
exhaustion, `Except.error` a Rust panic. -/
def visitChildren (cs : Cells) : Nat → Boxes → List Nat → Option (Except String Boxes)
  | _, bs, [] => some (Except.ok bs)
  | 0, _, _ :: _ => none
  | fuel + 1, bs, c :: rest =>
    match cellInner cs c with
    | none => some (Except.error unwrapMsg)
    | some n =>
      match hfind bs n with
      | none => some (Except.error unwrapMsg)
      | some b =>
        if b.mark then visitChildren cs fuel bs rest
        else
          match visitChildren cs fuel (hmod bs n (fun bb => { bb with mark := true })) b.children with
          | none => none
          | some (Except.error e) => some (Except.error e)
          | some (Except.ok bs') => visitChildren cs fuel bs' rest

/-- `Visitor::visit` on a single handle. -/
def visit (cs : Cells) (fuel : Nat) (bs : Boxes) (h : Nat) : Option (Except String Boxes) :=
  visitChildren cs fuel bs [h]

/-- The second `collect` pass: for each root in order, set its mark bit
(`(*r).as_mut().mark()`), then run its value's `trace` through the
visitor. A dangling root would be undefined behaviour in the source; the
embedding skips it (the arena invariant rules the case out). -/
def markRoots (cs : Cells) (fuel : Nat) : Boxes → List Nat → Option (Except String Boxes)
  | bs, [] => some (Except.ok bs)
  | bs, r :: rest =>
    let bs1 := hmod bs r (fun bb => { bb with mark := true })
    match hfind bs1 r with
    | none => markRoots cs fuel bs1 rest
    | some b =>
      match visitChildren cs fuel bs1 b.children with
      | none => none
      | some (Except.error e) => some (Except.error e)
      | some (Except.ok bs2) => markRoots cs fuel bs2 rest

/-- The heap effect of unlinking one box `x` with stored neighbour links
`bp = prev` and `bn = next`: splice the neighbours' links around it and
drop it (the body of the sweep's unmarked branch). -/
def unlinkHeap (bs : Boxes) (bp bn : Option Nat) (x : Nat) : Boxes :=
  let bs1 :=
    match bp with
    | none => bs
    | some p => hmod bs p (fun pb => { pb with next := bn })
  let bs2 :=
    match bn with
    | none => bs1
    | some nx => hmod bs1 nx (fun nb => { nb with prev := bp })
  herase bs2 x

/-- The sweep pass: walk the list (successor captured before the body
runs); a marked box is left untouched; an unmarked box updates the pending
new head when it is that head, has its neighbours' links spliced around it,
has its indirection cell emptied, and is dropped. -/
def sweepLoop : Nat → Boxes → Cells → Option Nat → Option Nat → Nat →
    Boxes × Cells × Option Nat × Nat
  | 0, bs, cs, _, start, col => (bs, cs, start, col)
  | _ + 1, bs, cs, none, start, col => (bs, cs, start, col)
  | fuel + 1, bs, cs, some t, start, col =>
    match hfind bs t with
    | none => (bs, cs, start, col)
    | some b =>
      if b.mark then sweepLoop fuel bs cs b.next start col
      else
        let start' := if start = some t then b.next else start
        let bs1 :=
          match b.prev with
          | none => bs
          | some p => hmod bs p (fun pb => { pb with next := b.next })
        let bs2 :=
          match b.next with
          | none => bs1
          | some nx => hmod bs1 nx (fun nb => { nb with prev := b.prev })
        let cs1 := cset cs b.alloc none
        sweepLoop fuel (herase bs2 t) cs1 b.next start' (col + 1)

/-- `Arena::collect`: unmark-and-count pass, mark pass over the roots,
sweep pass, then store the (possibly moved) head. `fuel` bounds every
internal loop; `none` is fuel exhaustion, `Except.error` a panic escaping
the mark phase. -/
def Arena.collect (a : Arena) (fuel : Nat) : Option (Except String (Arena × Collection)) :=
  let p1 := unmarkLoop a.boxes fuel a.start 0
  match markRoots a.cells fuel p1.1 a.roots with
  | none => none
  | some (Except.error e) => some (Except.error e)
  | some (Except.ok bs2) =>
    let p3 := sweepLoop fuel bs2 a.cells a.start a.start 0
    some (Except.ok
      ({ a with boxes := p3.1, cells := p3.2.1, start := p3.2.2.1 },
       { total := p1.2, collected := p3.2.2.2 }))

instance {ε α : Type} [DecidableEq ε] [DecidableEq α] : DecidableEq (Except ε α) :=
  fun x y =>
  match x, y with
  | Except.error e, Except.error e' =>
    if h : e = e' then isTrue (h ▸ rfl) else isFalse (fun hc => h (Except.error.inj hc))
  | Except.error _, Except.ok _ => isFalse (fun hc => Except.noConfusion hc)
  | Except.ok _, Except.error _ => isFalse (fun hc => Except.noConfusion hc)
  | Except.ok a, Except.ok b =>
    if h : a = b then isTrue (h ▸ rfl) else isFalse (fun hc => h (Except.ok.inj hc))

/-- Panic message of `Gc::as_ref` (`expect` on a collected handle). -/
def asRefMsg : String :=
  "Gc::as_ref on collected object"

/-- Panic message of `Gc::as_mut`. -/
def asMutMsg : String :=
  "Gc::as_mut on collected object"

/-- `Gc::try_as_ref`: read the cell; when live, dereference the box and
return its value (the children list stands for the value). Pure: no state
is produced or changed. -/
def Gc.try_as_ref (a : Arena) (h : Nat) : Option (List Nat) :=
  (cellInner a.cells h).bind (fun n => (hfind a.boxes n).map (fun b => b.children))

/-- `Gc::as_ref`: `try_as_ref` + `expect`, panicking on a collected
handle. -/
def Gc.as_ref (a : Arena) (h : Nat) : Except String (List Nat) :=
  match Gc.try_as_ref a h with
  | some v => Except.ok v
  | none => Except.error asRefMsg

/-- `Gc::try_as_mut`: identical liveness logic through the unique `&mut`
path. -/
def Gc.try_as_mut (a : Arena) (h : Nat) : Option (List Nat) :=
  (cellInner a.cells h).bind (fun n => (hfind a.boxes n).map (fun b => b.children))

/-- `Gc::as_mut`: `try_as_mut` + `expect`. -/
def Gc.as_mut (a : Arena) (h : Nat) : Except String (List Nat) :=
  match Gc.try_as_mut a h with
  | some v => Except.ok v
  | none => Except.error asMutMsg

/-- `Deref for Gc` delegates to `Gc::as_ref`. -/
def Gc.deref (a : Arena) (h : Nat) : Except String (List Nat) :=
  Gc.as_ref a h

/-- `DerefMut for Gc` delegates to `Gc::as_mut`. -/
def Gc.deref_mut (a : Arena) (h : Nat) : Except String (List Nat) :=
  Gc.as_mut a h

/-- `Clone for Gc`: `Rc::clone` shares the indirection cell, so the clone
is the same cell id. -/
def Gc.clone (h : Nat) : Nat := h

/-- Modelled from the spec: the identity comparison `same_allocation`
(`Gc::ptr_eq` in the test suite) is absent from `src/lib.rs`; per the spec
it is "true iff both handles currently share one indirection cell,
regardless of value", i.e. cell identity, which the embedding represents
by the cell id. -/
def Gc.ptr_eq (h1 h2 : Nat) : Bool := h1 = h2

/-- A handle is live when `try_as_ref` succeeds. -/
def liveB (a : Arena) (h : Nat) : Bool := (Gc.try_as_ref a h).isSome

/-! ### The intrusive-list well-formedness predicates -/

/-- A `next`-linked segment: `entry` points at the head of `l`, each box
points at its successor, and the last box's `next` is `ex`. -/
def chainNext (bs : Boxes) : Option Nat → List Nat → Option Nat → Bool
  | entry, [], ex => entry == ex
  | entry, t :: l, ex =>
    (entry == some t) &&
      (match hfind bs t with
       | none => false
       | some b => chainNext bs b.next l ex)

/-- A `prev`-linked segment: the head of `l` has `prev = p` and every
later box's `prev` points at its predecessor. -/
def chainPrev (bs : Boxes) : Option Nat → List Nat → Bool
  | _, [] => true
  | p, t :: l =>
    match hfind bs t with
    | none => false
    | some b => (b.prev == p) && chainPrev bs (some t) l

/-- Every listed box's cell backlink is its own id (the pairing `Gc::new`
sets up). -/
def allocsOK (bs : Boxes) (l : List Nat) : Bool :=
  l.all (fun t =>
    match hfind bs t with
    | none => false
    | some b => b.alloc == t)

/-- The arena's allocations form a single well-formed doubly linked list
`l` starting at `a.start`. -/
def IsList (a : Arena) (l : List Nat) : Prop :=
  chainNext a.boxes a.start l none = true ∧
  chainPrev a.boxes none l = true ∧
  allocsOK a.boxes l = true ∧
  l.Nodup

/-- The last element of `s`, or `p` when `s` is empty: the value the
`prev` pointer of the node following `s` must hold. -/
def lastOr (p : Option Nat) : List Nat → Option Nat
  | [] => p
  | x :: s => lastOr (some x) s

/-- Whether the box an id denotes is currently marked. -/
def markedB (bs : Boxes) (t : Nat) : Bool :=
  match hfind bs t with
  | some b => b.mark
  | none => false

/-- All reachable box ids are below the freshness counter (so a new
allocation's id is genuinely new). -/
def FreshOK (a : Arena) : Prop :=
  ∀ k, (hfind a.boxes k).isSome = true → k < a.fresh

/-- Executable form of `FreshOK`, ranging over every heap entry. -/
def freshOKB (a : Arena) : Bool :=
  a.boxes.all (fun p => p.1 < a.fresh)

instance (a : Arena) (l : List Nat) : Decidable (IsList a l) := by
  unfold IsList
  infer_instance

/-! ### Mark-phase bookkeeping -/

/-- The cumulative effect of the unmark pass on the heap. -/
def unmarkAll (bs : Boxes) (l : List Nat) : Boxes :=
  l.foldl (fun bs t => hmod bs t (fun b => { b with mark := false })) bs

/-- The cumulative effect of marking a list of boxes. -/
def markAll (bs : Boxes) (l : List Nat) : Boxes :=
  l.foldl (fun bs t => hmod bs t (fun b => { b with mark := true })) bs

/-- The mark phase's remaining-work potential: one unit per unmarked box
plus one per child edge of an unmarked box. -/
def Phi (bs : Boxes) : Nat :=
  (bs.map (fun p => if p.2.mark then 0 else p.2.children.length + 1)).sum

/-- A crude upper bound on any mark-phase quantity: one unit per box plus
one per child edge, marked or not. -/
def totalWork (bs : Boxes) : Nat :=
  (bs.map (fun p => p.2.children.length + 1)).sum

/-- Box evolution during the mark phase: everything except the mark bit is
unchanged, and a set mark bit stays set. -/
def markLe (b b' : GcBox) : Prop :=
  b'.next = b.next ∧ b'.prev = b.prev ∧ b'.alloc = b.alloc ∧
  b'.children = b.children ∧ (b.mark = true → b'.mark = true)

/-- Heap evolution during the mark phase: the domain is unchanged and each
box only evolves by `markLe`. -/
def MarkOnly (bs bs' : Boxes) : Prop :=
  ∀ t, (hfind bs t = none ∧ hfind bs' t = none) ∨
    ∃ b b', hfind bs t = some b ∧ hfind bs' t = some b' ∧ markLe b b'

/-- Every child handle stored in any live box refers, through its cell, to
a live box: the condition under which the mark phase cannot panic. -/
def ChildrenLive (cs : Cells) (bs : Boxes) : Prop :=
  ∀ t b, hfind bs t = some b →
    ∀ c ∈ b.children, ∃ m, cellInner cs c = some m ∧ (hfind bs m).isSome = true

/-- Executable form of `ChildrenLive`, ranging over every heap entry. -/
def childrenLiveB (cs : Cells) (bs : Boxes) : Bool :=
  bs.all (fun p => p.2.children.all (fun c =>
    match cellInner cs c with
    | some m => (hfind bs m).isSome
    | none => false))

/-! ### Concrete scenario states used by individual claims -/

/-- C3 scenario, step 1: `let c = arena.gc(Object::Simple)` (cell 0). -/
def c3P1 : Arena × Nat := Arena.new.gc []

/-- C3 scenario, step 2: `let b = arena.gc(Object::Simple)` (cell 1). -/
def c3P2 : Arena × Nat := c3P1.1.gc []

/-- C3 scenario, step 3: `let a = arena.root(Object::Container(vec![c]))`
(cell 2): a rooted container holding the one child `c`; `b` is referenced
by nothing. -/
def c3P3 : Arena × Nat := c3P2.1.root [c3P1.2]

/-- The arena after the C3 `collect()`. -/
def c3After : Arena :=
  match c3P3.1.collect 4 with
  | some (Except.ok p) => p.1
  | _ => Arena.new

/-- The `Collection` statistics of the C3 `collect()`. -/
def c3Result : Option Collection :=
  match c3P3.1.collect 4 with
  | some (Except.ok p) => some p.2
  | _ => none

/-- C4 scenario, step 1: one unrooted allocation (cell 0). -/
def c4P1 : Arena × Nat := Arena.new.gc []

/-- C4 scenario, step 2: after `collect()`, which reclaims it. -/
def c4Mid : Arena :=
  match c4P1.1.collect 3 with
  | some (Except.ok p) => p.1
  | _ => Arena.new

/-- C4 scenario, step 3: a rooted container whose value holds the dead
handle (`arena.root(Object::Container(vec![c]))` after `c` was
collected). -/
def c4P2 : Arena × Nat := c4Mid.root [c4P1.2]

/-- C6 scenario: one unrooted allocation `x` (cell 0), one rooted
allocation `r` (cell 1). -/
def c6Arena : Arena := ((Arena.new.gc []).1.root []).1

/-- `c6Arena` after one `collect()`: `x` is collected, `r` survives and
stays rooted, so the roots vector is non-empty. -/
def c6After : Arena :=
  match c6Arena.collect 4 with
  | some (Except.ok p) => p.1
  | _ => Arena.new

/-- C7 scenario: one unrooted allocation (cell 0). -/
def c7Arena : Arena := (Arena.new.gc []).1

/-- C7: `make_root` called five times on the same handle. -/
def c7Five : Arena :=
  Arena.make_root (Arena.make_root (Arena.make_root (Arena.make_root
    (Arena.make_root c7Arena 0) 0) 0) 0) 0

/-- C7: after the first `collect()` (which must retain the allocation). -/
def c7AfterCollect : Arena :=
  match c7Five.collect 3 with
  | some (Except.ok p) => p.1
  | _ => Arena.new

/-- C7: after one `unroot`. -/
def c7AfterUnroot : Arena :=
  match c7AfterCollect.unroot 0 with
  | some a => a
  | none => Arena.new

/-- Program states reachable from a fresh arena through the public API:
allocation, rooted allocation, rooting, un-rooting (when it returns) and a
completed collection. -/
inductive Reaches : Arena → Prop where
  | new : Reaches Arena.new
  | gc (a : Arena) (ch : List Nat) : Reaches a → Reaches (a.gc ch).1
  | root (a : Arena) (ch : List Nat) : Reaches a → Reaches (a.root ch).1
  | make_root (a : Arena) (h : Nat) : Reaches a → Reaches (a.make_root h)
  | unroot (a a' : Arena) (h : Nat) : Reaches a → a.unroot h = some a' →
      Reaches a'
  | collect (a a' : Arena) (fuel : Nat) (col : Collection) : Reaches a →
      a.collect fuel = some (Except.ok (a', col)) → Reaches a'

/-- C8 scenario: two allocations, the younger rooted. -/
def c8Base : Arena := ((Arena.new.gc []).1.root []).1

/-- C8: the result of collecting `c8Base` (reclaims the unrooted box). -/
def c8CollectRes : Option (Except String (Arena × Collection)) :=
  c8Base.collect 10

/-- C8: the arena after that collection. -/
def c8Demo : Arena :=
  match c8CollectRes with
  | some (Except.ok p) => p.1
  | _ => c8Base

/-- C8: the statistics of that collection. -/
def c8Col : Collection :=
  match c8CollectRes with
  | some (Except.ok p) => p.2
  | _ => { total := 0, collected := 0 }

/-! ### Pointwise heap lemmas -/

theorem hfind_hmod (bs : Boxes) (k : Nat) (f : GcBox → GcBox) (h : Nat) :
    hfind (hmod bs k f) h = if h = k then (hfind bs k).map f else hfind bs h := by
  induction bs with
  | nil => simp [hfind, hmod]
  | cons p bs ih =>
    obtain ⟨k', b⟩ := p
    by_cases hk : k = k'
    · subst hk
      by_cases hh : h = k
      · subst hh
        simp [hmod, hfind]
      · simp [hmod, hfind, hh, ih]
    · by_cases hh : h = k'
      · subst hh
        have hne : ¬ h = k := fun he => hk he.symm
        simp [hmod, hfind, hk, hne]
      · simp [hmod, hfind, hk, hh, ih]

theorem hfind_herase (bs : Boxes) (k h : Nat) :
    hfind (herase bs k) h = if h = k then none else hfind bs h := by
  induction bs with
  | nil => simp [hfind, herase]
  | cons p bs ih =>
    obtain ⟨k', b⟩ := p
    by_cases hk : k = k'
    · subst hk
      by_cases hh : h = k
      · subst hh
        simp [herase, ih]
      · simp [herase, hfind, hh, ih]
    · by_cases hh : h = k'
      · subst hh
        have hne : ¬ h = k := fun he => hk he.symm
        simp [herase, hfind, hk, hne]
      · simp [herase, hfind, hk, hh, ih]

theorem hfind_cons (k : Nat) (b : GcBox) (bs : Boxes) (h : Nat) :
    hfind ((k, b) :: bs) h = if h = k then some b else hfind bs h := rfl

theorem cfind_cset (cs : Cells) (k : Nat) (v : Option Nat) (h : Nat) :
    cfind (cset cs k v) h =
      if h = k then (cfind cs k).map (fun _ => v) else cfind cs h := by
  induction cs with
  | nil => simp [cfind, cset]
  | cons p cs ih =>
    obtain ⟨k', w⟩ := p
    by_cases hk : k = k'
    · subst hk
      by_cases hh : h = k
      · subst hh
        simp [cset, cfind]
      · simp [cset, cfind, hh, ih]
    · by_cases hh : h = k'
      · subst hh
        have hne : ¬ h = k := fun he => hk he.symm
        simp [cset, cfind, hk, hne]
      · simp [cset, cfind, hk, hh, ih]

theorem cfind_cons (k : Nat) (v : Option Nat) (cs : Cells) (h : Nat) :
    cfind ((k, v) :: cs) h = if h = k then some v else cfind cs h := rfl

/-- Keys present in a next-chain are present in the heap. -/
theorem chainNext_mem_isSome {bs : Boxes} {entry ex : Option Nat} {l : List Nat}
    (hc : chainNext bs entry l ex = true) : ∀ t ∈ l, (hfind bs t).isSome := by
  induction l generalizing entry with
  | nil => intro t ht; cases ht
  | cons x l ih =>
    intro t ht
    simp only [chainNext] at hc
    rw [Bool.and_eq_true] at hc
    obtain ⟨-, hrest⟩ := hc
    cases hfx : hfind bs x with
    | none => rw [hfx] at hrest; cases hrest
    | some b =>
      rw [hfx] at hrest
      rcases List.mem_cons.mp ht with rfl | hmem
      · simp [hfx]
      · exact ih hrest t hmem

/-- `chainNext` only looks at presence and the `next` field of the listed
boxes. -/
theorem chainNext_congr {bs bs' : Boxes} {l : List Nat}
    (hagree : ∀ t ∈ l, (hfind bs' t).map GcBox.next = (hfind bs t).map GcBox.next) :
    ∀ {entry ex : Option Nat}, chainNext bs' entry l ex = chainNext bs entry l ex := by
  induction l with
  | nil => intro entry ex; rfl
  | cons x l ih =>
    intro entry ex
    have hx := hagree x (List.mem_cons_self x l)
    simp only [chainNext]
    cases hfx : hfind bs x with
    | none =>
      rw [hfx] at hx
      cases hfx' : hfind bs' x with
      | none => rfl
      | some b' => rw [hfx'] at hx; simp at hx
    | some b =>
      rw [hfx] at hx
      cases hfx' : hfind bs' x with
      | none => rw [hfx'] at hx; simp at hx
      | some b' =>
        rw [hfx'] at hx
        simp only [Option.map_some'] at hx
        have hnext : b'.next = b.next := by injection hx
        show (entry == some x && chainNext bs' b'.next l ex)
          = (entry == some x && chainNext bs b.next l ex)
        rw [hnext, ih (fun t ht => hagree t (List.mem_cons_of_mem x ht))]

/-- `chainPrev` only looks at presence and the `prev` field of the listed
boxes. -/
theorem chainPrev_congr {bs bs' : Boxes} {l : List Nat}
    (hagree : ∀ t ∈ l, (hfind bs' t).map GcBox.prev = (hfind bs t).map GcBox.prev) :
    ∀ {p : Option Nat}, chainPrev bs' p l = chainPrev bs p l := by
  induction l with
  | nil => intro p; rfl
  | cons x l ih =>
    intro p
    have hx := hagree x (List.mem_cons_self x l)
    simp only [chainPrev]
    cases hfx : hfind bs x with
    | none =>
      rw [hfx] at hx
      cases hfx' : hfind bs' x with
      | none => rfl
      | some b' => rw [hfx'] at hx; simp at hx
    | some b =>
      rw [hfx] at hx
      cases hfx' : hfind bs' x with
      | none => rw [hfx'] at hx; simp at hx
      | some b' =>
        rw [hfx'] at hx
        simp only [Option.map_some'] at hx
        have hprev : b'.prev = b.prev := by injection hx
        show (b'.prev == p && chainPrev bs' (some x) l)
          = (b.prev == p && chainPrev bs (some x) l)
        rw [hprev, ih (fun t ht => hagree t (List.mem_cons_of_mem x ht))]

/-! ### Rooting lemmas -/

/-- `make_root` is idempotent on any state. -/
theorem make_root_idem (a : Arena) (h : Nat) :
    Arena.make_root (Arena.make_root a h) h = Arena.make_root a h := by
  cases hc : cellInner a.cells h with
  | none => simp [Arena.make_root, hc]
  | some n =>
    by_cases hmem : a.roots.any (fun p => p = n)
    · simp [Arena.make_root, hc, hmem]
    · simp [Arena.make_root, hc, hmem]

/-- `unroot` on a live handle never panics and filters every
pointer-equal entry out of the roots vector. -/
theorem unroot_live {a : Arena} {h n : Nat} (hc : cellInner a.cells h = some n) :
    a.unroot h = some { a with roots := a.roots.filter (fun p => ¬ p = n) } := by
  cases hr : a.roots with
  | nil =>
    simp only [Arena.unroot, hr, List.filter_nil]
  | cons r rs =>
    simp only [Arena.unroot, hr, hc]

/-- `allocsOK` only looks at presence and the `alloc` field. -/
theorem allocsOK_congr {bs bs' : Boxes} {l : List Nat}
    (hagree : ∀ t ∈ l, (hfind bs' t).map GcBox.alloc = (hfind bs t).map GcBox.alloc) :
    allocsOK bs' l = allocsOK bs l := by
  induction l with
  | nil => rfl
  | cons x l ih =>
    have hx := hagree x (List.mem_cons_self x l)
    unfold allocsOK at ih ⊢
    rw [List.all_cons, List.all_cons,
      ih (fun t ht => hagree t (List.mem_cons_of_mem x ht))]
    cases hfx : hfind bs x <;> cases hfx' : hfind bs' x <;>
      rw [hfx, hfx'] at hx <;> simp_all

/-! ### Allocation and iteration lemmas -/

/-- A found key has an entry in the heap list. -/
theorem hfind_isSome_mem {bs : Boxes} {k : Nat} (h : (hfind bs k).isSome) :
    ∃ b, (k, b) ∈ bs := by
  induction bs with
  | nil => simp [hfind] at h
  | cons p bs ih =>
    obtain ⟨k', b⟩ := p
    by_cases hk : k = k'
    · subst hk
      exact ⟨b, List.mem_cons_self _ _⟩
    · rw [hfind_cons, if_neg hk] at h
      obtain ⟨b', hb'⟩ := ih h
      exact ⟨b', List.mem_cons_of_mem _ hb'⟩

theorem freshOKB_spec {a : Arena} (h : freshOKB a = true) : FreshOK a := by
  intro k hk
  obtain ⟨b, hb⟩ := hfind_isSome_mem hk
  have := List.all_eq_true.mp h _ hb
  simpa using this

/-- `hmod` does not change the key set. -/
theorem hmod_mem_keys {bs : Boxes} {k : Nat} {f : GcBox → GcBox} :
    ∀ p ∈ hmod bs k f, ∃ q ∈ bs, p.1 = q.1 := by
  induction bs with
  | nil => intro p hp; simp [hmod] at hp
  | cons q bs ih =>
    obtain ⟨k', b⟩ := q
    intro p hp
    by_cases hk : k = k'
    · subst hk
      simp only [hmod, if_pos rfl] at hp
      rcases List.mem_cons.mp hp with rfl | hmem
      · exact ⟨(k, b), List.mem_cons_self _ _, rfl⟩
      · obtain ⟨q, hq, he⟩ := ih _ hmem
        exact ⟨q, List.mem_cons_of_mem _ hq, he⟩
    · simp only [hmod, if_neg hk] at hp
      rcases List.mem_cons.mp hp with rfl | hmem
      · exact ⟨(k', b), List.mem_cons_self _ _, rfl⟩
      · obtain ⟨q, hq, he⟩ := ih _ hmem
        exact ⟨q, List.mem_cons_of_mem _ hq, he⟩

/-- With enough fuel, iterating from the entry of a next-chain yields
exactly the chain. -/
theorem iterList_of_chain {bs : Boxes} {l : List Nat} :
    ∀ {entry : Option Nat} {fuel : Nat}, chainNext bs entry l none = true →
      l.length ≤ fuel → iterList bs fuel entry = l := by
  induction l with
  | nil =>
    intro entry fuel hc _
    simp only [chainNext, beq_iff_eq] at hc
    subst hc
    cases fuel <;> rfl
  | cons x l ih =>
    intro entry fuel hc hfuel
    simp only [chainNext] at hc
    rw [Bool.and_eq_true] at hc
    obtain ⟨hentry, hrest⟩ := hc
    rw [beq_iff_eq] at hentry
    subst hentry
    cases hfx : hfind bs x with
    | none => rw [hfx] at hrest; cases hrest
    | some b =>
      rw [hfx] at hrest
      obtain ⟨fuel, rfl⟩ : ∃ f, fuel = f + 1 := by
        cases fuel with
        | zero => simp at hfuel
        | succ f => exact ⟨f, rfl⟩
      simp only [iterList, hfx]
      rw [ih hrest (by simpa using hfuel)]

/-- What `Arena::gc` does to the heap: the fresh box becomes the head with
`prev = None`, `next` = the old head; the old head's `prev` is rewired to
the fresh box; every other box is untouched. -/
theorem gc_spec (a : Arena) (ch : List Nat) (hstart : a.start ≠ some a.fresh) :
    (a.gc ch).2 = a.fresh ∧
    (a.gc ch).1.start = some a.fresh ∧
    (a.gc ch).1.roots = a.roots ∧
    (a.gc ch).1.fresh = a.fresh + 1 ∧
    (a.gc ch).1.cells = (a.fresh, some a.fresh) :: a.cells ∧
    hfind (a.gc ch).1.boxes a.fresh =
      some { mark := false, next := a.start, prev := none, alloc := a.fresh, children := ch } ∧
    (∀ t, t ≠ a.fresh →
      hfind (a.gc ch).1.boxes t =
        if a.start = some t then
          (hfind a.boxes t).map (fun b => { b with prev := some a.fresh })
        else hfind a.boxes t) := by
  refine ⟨rfl, rfl, rfl, rfl, rfl, ?_, ?_⟩
  · show hfind (hmod _ a.fresh _) a.fresh = _
    rw [hfind_hmod, if_pos rfl]
    cases hs : a.start with
    | none => simp [hfind_cons]
    | some s =>
      have hsn : ¬ s = a.fresh := fun he => hstart (by rw [hs, he])
      simp only [hs]
      rw [hfind_hmod, if_neg (fun he => hsn he.symm), hfind_cons, if_pos rfl]
      rfl
  · intro t ht
    show hfind (hmod _ a.fresh _) t = _
    rw [hfind_hmod, if_neg ht]
    cases hs : a.start with
    | none =>
      rw [hfind_cons, if_neg ht, if_neg (fun he => Option.noConfusion he)]
    | some s =>
      have hsn : ¬ s = a.fresh := fun he => hstart (by rw [hs, he])
      simp only [hs]
      rw [hfind_hmod]
      by_cases hts : t = s
      · subst hts
        rw [if_pos rfl, hfind_cons, if_neg ht]
        simp
      · rw [if_neg hts, hfind_cons, if_neg ht]
        have : ¬ (some s : Option Nat) = some t := by
          intro he
          exact hts (Option.some.inj he).symm
        simp [this]

/-- `Arena::gc` prepends the new allocation to the intrusive list and
keeps it well formed. -/
theorem gc_IsList {a : Arena} {l : List Nat} (hl : IsList a l) (hf : FreshOK a)
    (ch : List Nat) :
    IsList (a.gc ch).1 (a.fresh :: l) ∧ FreshOK (a.gc ch).1 := by
  obtain ⟨hnext, hprev, halloc, hnodup⟩ := hl
  have hmemlt : ∀ t ∈ l, t < a.fresh := by
    intro t ht
    exact hf t (chainNext_mem_isSome hnext t ht)
  have hstart : a.start ≠ some a.fresh := by
    intro he
    cases l with
    | nil => simp only [chainNext, beq_iff_eq] at hnext; rw [hnext] at he; cases he
    | cons x l' =>
      simp only [chainNext] at hnext
      rw [Bool.and_eq_true, beq_iff_eq] at hnext
      have hx : x = a.fresh := by
        have := hnext.1.symm.trans he
        exact (Option.some.inj this)
      have := hmemlt x (List.mem_cons_self _ _)
      omega
  obtain ⟨-, hstart', -, hfresh', -, hhead, hrest⟩ := gc_spec a ch hstart
  have hne : ∀ t ∈ l, t ≠ a.fresh := fun t ht he => by
    have := hmemlt t ht; omega
  have hagree_next : ∀ t ∈ l,
      (hfind (a.gc ch).1.boxes t).map GcBox.next = (hfind a.boxes t).map GcBox.next := by
    intro t ht
    rw [hrest t (hne t ht)]
    by_cases hs : a.start = some t
    · rw [if_pos hs]; cases hfind a.boxes t <;> rfl
    · rw [if_neg hs]
  have hagree_alloc : ∀ t ∈ l,
      (hfind (a.gc ch).1.boxes t).map GcBox.alloc = (hfind a.boxes t).map GcBox.alloc := by
    intro t ht
    rw [hrest t (hne t ht)]
    by_cases hs : a.start = some t
    · rw [if_pos hs]; cases hfind a.boxes t <;> rfl
    · rw [if_neg hs]
  refine ⟨⟨?_, ?_, ?_, ?_⟩, ?_⟩
  · -- next-chain: fresh :: l
    simp only [chainNext, hstart', hhead]
    rw [Bool.and_eq_true]
    refine ⟨by simp, ?_⟩
    show chainNext (a.gc ch).1.boxes a.start l none = true
    rw [chainNext_congr hagree_next]
    exact hnext
  · -- prev-chain: fresh :: l
    simp only [chainPrev, hhead]
    rw [Bool.and_eq_true]
    refine ⟨by simp, ?_⟩
    cases l with
    | nil => rfl
    | cons x l' =>
      have hstartx : a.start = some x := by
        simp only [chainNext] at hnext
        rw [Bool.and_eq_true, beq_iff_eq] at hnext
        exact hnext.1
      simp only [chainPrev] at hprev
      cases hfx : hfind a.boxes x with
      | none => rw [hfx] at hprev; cases hprev
      | some bx =>
        rw [hfx] at hprev
        rw [Bool.and_eq_true] at hprev
        obtain ⟨-, hprev'⟩ := hprev
        simp only [chainPrev]
        rw [hrest x (hne x (List.mem_cons_self _ _)), if_pos hstartx, hfx]
        simp only [Option.map_some']
        rw [Bool.and_eq_true]
        refine ⟨by simp, ?_⟩
        have hagree_prev : ∀ t ∈ l',
            (hfind (a.gc ch).1.boxes t).map GcBox.prev = (hfind a.boxes t).map GcBox.prev := by
          intro t ht
          rw [hrest t (hne t (List.mem_cons_of_mem _ ht))]
          by_cases hs : a.start = some t
          · exfalso
            have : x = t := Option.some.inj (hstartx.symm.trans hs)
            rw [List.nodup_cons] at hnodup
            exact hnodup.1 (this ▸ ht)
          · rw [if_neg hs]
        rw [chainPrev_congr hagree_prev]
        exact hprev'
  · -- alloc backlinks
    unfold allocsOK
    rw [List.all_cons]
    rw [Bool.and_eq_true]
    constructor
    · rw [hhead]; simp
    · show allocsOK (a.gc ch).1.boxes l = true
      rw [allocsOK_congr hagree_alloc]
      exact halloc
  · -- nodup
    rw [List.nodup_cons]
    exact ⟨fun hmem => by have := hmemlt _ hmem; omega, hnodup⟩
  · -- freshness
    intro k hk
    rw [hfresh']
    show k < a.fresh + 1
    by_cases hkn : k = a.fresh
    · omega
    · rw [hrest k hkn] at hk
      by_cases hs : a.start = some k
      · rw [if_pos hs] at hk
        have hk2 : (hfind a.boxes k).isSome = true := by
          cases hfk : hfind a.boxes k with
          | none => rw [hfk] at hk; cases hk
          | some b => rfl
        have := hf k hk2
        omega
      · rw [if_neg hs] at hk
        have := hf k hk
        omega

/-- `Arena::root` touches only the roots vector beyond what `gc` does. -/
theorem root_IsList {a : Arena} {l : List Nat} (hl : IsList a l) (hf : FreshOK a)
    (ch : List Nat) :
    IsList (a.root ch).1 (a.fresh :: l) ∧ FreshOK (a.root ch).1 := by
  have := gc_IsList hl hf ch
  unfold Arena.root
  exact this

/-! ### Unmark pass, no-children mark pass, and uniform sweeps -/

/-- `hmod` is invisible to any field observation the modification
preserves. -/
theorem hfind_hmod_map {α : Type} (g : GcBox → α) (f : GcBox → GcBox)
    (hfg : ∀ b, g (f b) = g b) (bs : Boxes) (k t : Nat) :
    (hfind (hmod bs k f) t).map g = (hfind bs t).map g := by
  rw [hfind_hmod]
  by_cases ht : t = k
  · subst ht
    rw [if_pos rfl]
    cases hfind bs t <;> simp [hfg]
  · rw [if_neg ht]

/-- Folding `hmod` over a list is invisible to preserved observations. -/
theorem hfind_foldl_hmod_map {α : Type} (g : GcBox → α) (f : GcBox → GcBox)
    (hfg : ∀ b, g (f b) = g b) :
    ∀ (l : List Nat) (bs : Boxes) (t : Nat),
      (hfind (l.foldl (fun bs k => hmod bs k f) bs) t).map g = (hfind bs t).map g := by
  intro l
  induction l with
  | nil => intro bs t; rfl
  | cons x l ih =>
    intro bs t
    rw [List.foldl_cons, ih, hfind_hmod_map g f hfg]

/-- Pointwise description of folding an idempotent `hmod` over a list. -/
theorem hfind_foldl_hmod (f : GcBox → GcBox) (hf : ∀ b, f (f b) = f b) :
    ∀ (l : List Nat) (bs : Boxes) (t : Nat),
      hfind (l.foldl (fun bs k => hmod bs k f) bs) t =
        if t ∈ l then (hfind bs t).map f else hfind bs t := by
  intro l
  induction l with
  | nil => intro bs t; simp
  | cons x l ih =>
    intro bs t
    rw [List.foldl_cons, ih]
    by_cases hx : t = x
    · subst hx
      by_cases hl : t ∈ l
      · rw [if_pos hl, if_pos (List.mem_cons_self _ _), hfind_hmod, if_pos rfl]
        cases hfind bs t <;> simp [hf]
      · rw [if_neg hl, if_pos (List.mem_cons_self _ _), hfind_hmod, if_pos rfl]
    · by_cases hl : t ∈ l
      · rw [if_pos hl, if_pos (List.mem_cons_of_mem _ hl), hfind_hmod, if_neg hx]
      · rw [if_neg hl, hfind_hmod, if_neg hx,
          if_neg (fun hm => (List.mem_cons.mp hm).elim hx hl)]

theorem hfind_unmarkAll (l : List Nat) (bs : Boxes) (t : Nat) :
    hfind (unmarkAll bs l) t =
      if t ∈ l then (hfind bs t).map (fun b => { b with mark := false })
      else hfind bs t :=
  hfind_foldl_hmod (fun b => { b with mark := false }) (fun _ => rfl) l bs t

theorem hfind_markAll (l : List Nat) (bs : Boxes) (t : Nat) :
    hfind (markAll bs l) t =
      if t ∈ l then (hfind bs t).map (fun b => { b with mark := true })
      else hfind bs t :=
  hfind_foldl_hmod (fun b => { b with mark := true }) (fun _ => rfl) l bs t

/-- Visiting an empty child list is a no-op at any fuel. -/
theorem visitChildren_nil (cs : Cells) (fuel : Nat) (bs : Boxes) :
    visitChildren cs fuel bs [] = some (Except.ok bs) := by
  cases fuel <;> rfl

/-- The unmark-and-count pass: on a well-formed chain with enough fuel it
unmarks exactly the chain and counts its length. -/
theorem unmarkLoop_spec :
    ∀ (l : List Nat) (bs : Boxes) (entry : Option Nat) (total fuel : Nat),
      chainNext bs entry l none = true → l.length ≤ fuel →
      unmarkLoop bs fuel entry total = (unmarkAll bs l, total + l.length) := by
  intro l
  induction l with
  | nil =>
    intro bs entry total fuel hc _
    simp only [chainNext, beq_iff_eq] at hc
    subst hc
    cases fuel <;> simp [unmarkLoop, unmarkAll]
  | cons x l ih =>
    intro bs entry total fuel hc hfuel
    simp only [chainNext] at hc
    rw [Bool.and_eq_true, beq_iff_eq] at hc
    obtain ⟨rfl, hrest⟩ := hc
    cases hfx : hfind bs x with
    | none => rw [hfx] at hrest; cases hrest
    | some b =>
      rw [hfx] at hrest
      obtain ⟨f, rfl⟩ : ∃ f, fuel = f + 1 := by
        cases fuel with
        | zero => simp at hfuel
        | succ f => exact ⟨f, rfl⟩
      simp only [unmarkLoop, hfx]
      have hchain1 :
          chainNext (hmod bs x (fun bb => { bb with mark := false })) b.next l none = true := by
        rw [chainNext_congr (fun t _ =>
          hfind_hmod_map GcBox.next (fun bb => { bb with mark := false }) (fun _ => rfl) bs x t)]
        exact hrest
      rw [ih _ _ _ _ hchain1 (by simpa using hfuel)]
      have hlen : total + 1 + l.length = total + (x :: l).length := by
        simp
        omega
      rw [hlen]
      rfl

/-- The mark pass over roots whose values hold no child handles marks
exactly the roots. -/
theorem markRoots_no_children (cs : Cells) (fuel : Nat) :
    ∀ (roots : List Nat) (bs : Boxes),
      (∀ r ∈ roots, (hfind bs r).map GcBox.children = some []) →
      markRoots cs fuel bs roots = some (Except.ok (markAll bs roots)) := by
  intro roots
  induction roots with
  | nil => intro bs _; rfl
  | cons r rest ih =>
    intro bs hall
    have hr := hall r (List.mem_cons_self _ _)
    cases hb : hfind bs r with
    | none => rw [hb] at hr; cases hr
    | some b =>
      rw [hb] at hr
      simp only [Option.map_some'] at hr
      have hch : b.children = [] := Option.some.inj hr
      have hb1 : hfind (hmod bs r (fun bb => { bb with mark := true })) r
          = some { b with mark := true } := by
        rw [hfind_hmod, if_pos rfl, hb]
        rfl
      simp only [markRoots, hb1]
      have hchmk : ({ b with mark := true } : GcBox).children = [] := hch
      rw [hchmk, visitChildren_nil]
      show markRoots cs fuel (hmod bs r (fun bb => { bb with mark := true })) rest
          = some (Except.ok (markAll bs (r :: rest)))
      rw [ih _ (fun r' hr' => by
        rw [hfind_hmod_map GcBox.children (fun bb => { bb with mark := true })
          (fun _ => rfl)]
        exact hall r' (List.mem_cons_of_mem _ hr'))]
      rfl

/-- The entry pointer of a next-chain is forced: the head of the list, or
the exit when the list is empty. -/
theorem chainNext_entry {bs : Boxes} {entry ex : Option Nat} {l : List Nat}
    (h : chainNext bs entry l ex = true) :
    entry = l.head?.or ex := by
  cases l with
  | nil =>
    simp only [chainNext, beq_iff_eq] at h
    exact h
  | cons x l =>
    simp only [chainNext] at h
    rw [Bool.and_eq_true, beq_iff_eq] at h
    exact h.1

/-- The junction pointer of an appended chain, on a nonempty second part. -/
theorem headOr_cons (y : Nat) (l : List Nat) (ex : Option Nat) :
    ((y :: l).head?).or ex = some y := rfl

/-- The junction pointer of an appended chain, on an empty second part. -/
theorem headOr_nil (ex : Option Nat) : (([] : List Nat).head?).or ex = ex := rfl

/-- A next-chain over an appended list splits at the junction. -/
theorem chainNext_append (bs : Boxes) (s r : List Nat) (entry ex : Option Nat) :
    chainNext bs entry (s ++ r) ex
      = (chainNext bs entry s (r.head?.or ex)
         && chainNext bs (r.head?.or ex) r ex) := by
  induction s generalizing entry with
  | nil =>
    cases r with
    | nil => simp [chainNext]
    | cons y r' =>
      show chainNext bs entry (y :: r') ex
        = ((entry == some y) && chainNext bs (some y) (y :: r') ex)
      simp only [chainNext, beq_self_eq_true, Bool.true_and]
  | cons x s ih =>
    show chainNext bs entry (x :: (s ++ r)) ex = _
    simp only [chainNext]
    cases hfx : hfind bs x with
    | none => simp
    | some b =>
      dsimp only
      rw [ih]
      simp [Bool.and_assoc]

/-- A prev-chain over an appended list splits at the junction, the second
part anchored at the last element of the first. -/
theorem chainPrev_append (bs : Boxes) (s r : List Nat) (p : Option Nat) :
    chainPrev bs p (s ++ r) = (chainPrev bs p s && chainPrev bs (lastOr p s) r) := by
  induction s generalizing p with
  | nil => simp [chainPrev, lastOr]
  | cons x s ih =>
    show chainPrev bs p (x :: (s ++ r)) = _
    simp only [chainPrev, lastOr]
    cases hfx : hfind bs x with
    | none => simp
    | some b =>
      dsimp only
      rw [ih]
      simp [Bool.and_assoc]

/-- One marked sweep step just moves on. -/
theorem sweepLoop_marked_step {bs : Boxes} {x : Nat} {b : GcBox}
    (cs : Cells) (f col : Nat) (start : Option Nat)
    (hfx : hfind bs x = some b) (hbm : b.mark = true) :
    sweepLoop (f + 1) bs cs (some x) start col = sweepLoop f bs cs b.next start col := by
  simp only [sweepLoop, hfx, hbm, reduceIte]

/-- One unmarked sweep step unlinks the box, empties its cell, moves the
pending head off it, and counts it. -/
theorem sweepLoop_unmarked_step {bs : Boxes} {x : Nat} {b : GcBox}
    (cs : Cells) (f col : Nat) (start : Option Nat)
    (hfx : hfind bs x = some b) (hbm : b.mark = false) :
    sweepLoop (f + 1) bs cs (some x) start col
      = sweepLoop f (unlinkHeap bs b.prev b.next x) (cset cs b.alloc none) b.next
          (if start = some x then b.next else start) (col + 1) := by
  simp only [sweepLoop, hfx, hbm, Bool.false_eq_true, reduceIte, unlinkHeap]

theorem hfind_unlinkHeap_x (bs : Boxes) (bp bn : Option Nat) (x : Nat) :
    hfind (unlinkHeap bs bp bn x) x = none := by
  unfold unlinkHeap
  rw [hfind_herase, if_pos rfl]

theorem hfind_unlinkHeap_map {α : Type} (g : GcBox → α)
    (hgn : ∀ bb v, g { bb with next := v } = g bb)
    (hgp : ∀ bb v, g { bb with prev := v } = g bb)
    (bs : Boxes) (bp bn : Option Nat) (x t : Nat) (htx : ¬ t = x) :
    (hfind (unlinkHeap bs bp bn x) t).map g = (hfind bs t).map g := by
  unfold unlinkHeap
  dsimp only
  rw [hfind_herase, if_neg htx]
  cases bn with
  | none =>
    cases bp with
    | none => rfl
    | some p =>
      exact hfind_hmod_map g (fun pb => { pb with next := none })
        (fun bb => hgn bb none) bs p t
  | some nx =>
    rw [hfind_hmod_map g (fun nb => { nb with prev := bp }) (fun bb => hgp bb bp)]
    cases bp with
    | none => rfl
    | some p =>
      exact hfind_hmod_map g (fun pb => { pb with next := some nx })
        (fun bb => hgn bb (some nx)) bs p t

theorem hfind_unlinkHeap_next (bs : Boxes) (bp bn : Option Nat) (x t : Nat)
    (htx : ¬ t = x) (htp : ¬ bp = some t) :
    (hfind (unlinkHeap bs bp bn x) t).map GcBox.next = (hfind bs t).map GcBox.next := by
  unfold unlinkHeap
  dsimp only
  rw [hfind_herase, if_neg htx]
  cases bn with
  | none =>
    cases bp with
    | none => rfl
    | some p =>
      have htp' : ¬ t = p := fun he => htp (by rw [he])
      rw [hfind_hmod, if_neg htp']
  | some nx =>
    rw [hfind_hmod_map GcBox.next (fun nb => { nb with prev := bp }) (fun _ => rfl)]
    cases bp with
    | none => rfl
    | some p =>
      have htp' : ¬ t = p := fun he => htp (by rw [he])
      rw [hfind_hmod, if_neg htp']

theorem hfind_unlinkHeap_prev (bs : Boxes) (bp bn : Option Nat) (x t : Nat)
    (htx : ¬ t = x) (htn : ¬ bn = some t) :
    (hfind (unlinkHeap bs bp bn x) t).map GcBox.prev = (hfind bs t).map GcBox.prev := by
  unfold unlinkHeap
  dsimp only
  rw [hfind_herase, if_neg htx]
  cases bn with
  | none =>
    cases bp with
    | none => rfl
    | some p =>
      exact hfind_hmod_map GcBox.prev (fun pb => { pb with next := none })
        (fun _ => rfl) bs p t
  | some nx =>
    have htn' : ¬ t = nx := fun he => htn (by rw [he])
    rw [hfind_hmod, if_neg htn']
    cases bp with
    | none => rfl
    | some p =>
      exact hfind_hmod_map GcBox.prev (fun pb => { pb with next := some nx })
        (fun _ => rfl) bs p t

theorem hfind_unlinkHeap_p (bs : Boxes) (p : Nat) (bn : Option Nat) (x : Nat)
    (hpx : ¬ p = x) (hpn : ¬ bn = some p) :
    hfind (unlinkHeap bs (some p) bn x) p
      = (hfind bs p).map (fun pb => { pb with next := bn }) := by
  unfold unlinkHeap
  dsimp only
  rw [hfind_herase, if_neg hpx]
  cases bn with
  | none => rw [hfind_hmod, if_pos rfl]
  | some nx =>
    have hpnx : ¬ p = nx := fun he => hpn (by rw [he])
    rw [hfind_hmod, if_neg hpnx, hfind_hmod, if_pos rfl]

theorem hfind_unlinkHeap_nx (bs : Boxes) (bp : Option Nat) (nx : Nat) (x : Nat)
    (hnx : ¬ nx = x) (hnp : ¬ bp = some nx) :
    hfind (unlinkHeap bs bp (some nx) x) nx
      = (hfind bs nx).map (fun nb => { nb with prev := bp }) := by
  unfold unlinkHeap
  dsimp only
  rw [hfind_herase, if_neg hnx, hfind_hmod, if_pos rfl]
  cases bp with
  | none => rfl
  | some p =>
    have hnxp : ¬ nx = p := fun he => hnp (by rw [he])
    rw [hfind_hmod, if_neg hnxp]

theorem lastOr_concat (p0 : Option Nat) (s0 : List Nat) (p : Nat) :
    lastOr p0 (s0 ++ [p]) = some p := by
  induction s0 generalizing p0 with
  | nil => rfl
  | cons u s0 ih => exact ih (some u)

theorem lastOr_cases (p : Option Nat) (s : List Nat) :
    lastOr p s = p ∨ ∃ u ∈ s, lastOr p s = some u := by
  induction s generalizing p with
  | nil => exact Or.inl rfl
  | cons x s ih =>
    rcases ih (some x) with he | ⟨u, hu, he⟩
    · exact Or.inr ⟨x, List.mem_cons_self _ _, he⟩
    · exact Or.inr ⟨u, List.mem_cons_of_mem _ hu, he⟩

theorem markedB_congr {bs bs' : Boxes} {t : Nat}
    (h : (hfind bs' t).map GcBox.mark = (hfind bs t).map GcBox.mark) :
    markedB bs' t = markedB bs t := by
  unfold markedB
  cases h1 : hfind bs t <;> cases h2 : hfind bs' t <;> rw [h1, h2] at h <;> simp_all

/-- A sweep over a fully marked chain does nothing. -/
theorem sweepLoop_all_marked (cs : Cells) :
    ∀ (l : List Nat) (bs : Boxes) (entry start : Option Nat) (col fuel : Nat),
      chainNext bs entry l none = true →
      (∀ t ∈ l, (hfind bs t).map GcBox.mark = some true) →
      l.length ≤ fuel →
      sweepLoop fuel bs cs entry start col = (bs, cs, start, col) := by
  intro l
  induction l with
  | nil =>
    intro bs entry start col fuel hc _ _
    simp only [chainNext, beq_iff_eq] at hc
    subst hc
    cases fuel <;> rfl
  | cons x l ih =>
    intro bs entry start col fuel hc hmk hfuel
    simp only [chainNext] at hc
    rw [Bool.and_eq_true, beq_iff_eq] at hc
    obtain ⟨rfl, hrest⟩ := hc
    cases hfx : hfind bs x with
    | none => rw [hfx] at hrest; cases hrest
    | some b =>
      rw [hfx] at hrest
      have hx := hmk x (List.mem_cons_self _ _)
      rw [hfx] at hx
      simp only [Option.map_some'] at hx
      have hbm : b.mark = true := Option.some.inj hx
      obtain ⟨f, rfl⟩ : ∃ f, fuel = f + 1 := by
        cases fuel with
        | zero => simp at hfuel
        | succ f => exact ⟨f, rfl⟩
      simp only [sweepLoop, hfx, hbm, if_pos]
      exact ih _ _ _ _ _ hrest (fun t ht => hmk t (List.mem_cons_of_mem _ ht))
        (by simpa using hfuel)

/-- A sweep step never resurrects an erased box. -/
theorem sweepLoop_preserves_none :
    ∀ (fuel : Nat) (bs : Boxes) (cs : Cells) (cur start : Option Nat) (col t : Nat),
      hfind bs t = none →
      hfind (sweepLoop fuel bs cs cur start col).1 t = none := by
  intro fuel
  induction fuel with
  | zero => intro bs cs cur start col t ht; exact ht
  | succ f ih =>
    intro bs cs cur start col t ht
    cases cur with
    | none => exact ht
    | some u =>
      cases hfu : hfind bs u with
      | none => simp only [sweepLoop, hfu]; exact ht
      | some b =>
        by_cases hbm : b.mark
        · simp only [sweepLoop, hfu, hbm, if_pos]
          exact ih _ _ _ _ _ _ ht
        · simp only [sweepLoop, hfu, hbm]
          apply ih
          rw [hfind_herase]
          by_cases htu : t = u
          · rw [if_pos htu]
          · rw [if_neg htu]
            have h2 : ∀ (bs0 : Boxes), hfind bs0 t = none →
                hfind (match b.next with
                  | none => bs0
                  | some nx => hmod bs0 nx (fun nb => { nb with prev := b.prev })) t = none := by
              intro bs0 h0
              cases b.next with
              | none => exact h0
              | some nx =>
                rw [hfind_hmod]
                by_cases htn : t = nx
                · rw [if_pos htn, ← htn, h0]
                  rfl
                · rw [if_neg htn]
                  exact h0
            apply h2
            cases b.prev with
            | none => exact ht
            | some p =>
              rw [hfind_hmod]
              by_cases htp : t = p
              · rw [if_pos htp, ← htp, ht]
                rfl
              · rw [if_neg htp]
                exact ht

/-- A sweep over a fully unmarked well-formed chain unlinks and drops
every box, nulls the head, and counts every allocation as collected. -/
theorem sweepLoop_all_unmarked :
    ∀ (l : List Nat) (bs : Boxes) (cs : Cells) (entry : Option Nat) (col fuel : Nat),
      chainNext bs entry l none = true →
      chainPrev bs none l = true →
      l.Nodup →
      (∀ t ∈ l, (hfind bs t).map GcBox.mark = some false) →
      l.length ≤ fuel →
      ∃ bs' cs', sweepLoop fuel bs cs entry entry col = (bs', cs', none, col + l.length) ∧
        ∀ t ∈ l, hfind bs' t = none := by
  intro l
  induction l with
  | nil =>
    intro bs cs entry col fuel hc _ _ _ _
    simp only [chainNext, beq_iff_eq] at hc
    subst hc
    refine ⟨bs, cs, ?_, fun t ht => absurd ht (List.not_mem_nil t)⟩
    cases fuel <;> rfl
  | cons x l ih =>
    intro bs cs entry col fuel hc hp hnd hmk hfuel
    simp only [chainNext] at hc
    rw [Bool.and_eq_true, beq_iff_eq] at hc
    obtain ⟨rfl, hrest⟩ := hc
    cases hfx : hfind bs x with
    | none => rw [hfx] at hrest; cases hrest
    | some b =>
      rw [hfx] at hrest
      have hxmk := hmk x (List.mem_cons_self _ _)
      rw [hfx] at hxmk
      simp only [Option.map_some'] at hxmk
      have hbm : b.mark = false := Option.some.inj hxmk
      simp only [chainPrev, hfx] at hp
      rw [Bool.and_eq_true, beq_iff_eq] at hp
      obtain ⟨hbp, hptail⟩ := hp
      rw [List.nodup_cons] at hnd
      obtain ⟨hxl, hndl⟩ := hnd
      obtain ⟨f, rfl⟩ : ∃ f, fuel = f + 1 := by
        cases fuel with
        | zero => simp at hfuel
        | succ f => exact ⟨f, rfl⟩
      cases l with
      | nil =>
        have hbn : b.next = none := by
          simpa [chainNext, beq_iff_eq] using hrest
        refine ⟨herase bs x, cset cs b.alloc none, ?_, ?_⟩
        · show sweepLoop (f + 1) bs cs (some x) (some x) col = _
          simp only [sweepLoop, hfx, hbm, hbp, hbn, Bool.false_eq_true,
            Bool.false_eq_true, if_neg, reduceIte]
          cases f <;> rfl
        · intro t ht
          have htx : t = x := by
            rcases List.mem_cons.mp ht with h | h
            · exact h
            · cases h
          subst htx
          rw [hfind_herase, if_pos rfl]
      | cons y l' =>
        have hbn : b.next = some y := by
          simp only [chainNext] at hrest
          rw [Bool.and_eq_true, beq_iff_eq] at hrest
          exact hrest.1
        have hxy : ¬ y = x := fun he => hxl (he ▸ List.mem_cons_self y l')
        have hyl' : y ∉ l' := (List.nodup_cons.mp hndl).1
        set bs2 := hmod bs y (fun nb => { nb with prev := b.prev }) with hbs2
        set bs3 := herase bs2 x with hbs3
        have hfind3 : ∀ t, ¬ t = x →
            hfind bs3 t = hfind bs2 t := by
          intro t htx
          rw [hbs3, hfind_herase, if_neg htx]
        have hag_next : ∀ t ∈ y :: l',
            (hfind bs3 t).map GcBox.next = (hfind bs t).map GcBox.next := by
          intro t ht
          have htx : ¬ t = x := fun he => hxl (he ▸ ht)
          rw [hfind3 t htx, hbs2]
          exact hfind_hmod_map GcBox.next (fun nb => { nb with prev := b.prev })
            (fun _ => rfl) bs y t
        have hag_mark : ∀ t ∈ y :: l',
            (hfind bs3 t).map GcBox.mark = (hfind bs t).map GcBox.mark := by
          intro t ht
          have htx : ¬ t = x := fun he => hxl (he ▸ ht)
          rw [hfind3 t htx, hbs2]
          exact hfind_hmod_map GcBox.mark (fun nb => { nb with prev := b.prev })
            (fun _ => rfl) bs y t
        have hchain3 : chainNext bs3 b.next (y :: l') none = true := by
          rw [chainNext_congr hag_next]
          exact hrest
        have hprev3 : chainPrev bs3 none (y :: l') = true := by
          simp only [chainPrev] at hptail
          cases hfy : hfind bs y with
          | none => rw [hfy] at hptail; cases hptail
          | some yb =>
            rw [hfy] at hptail
            rw [Bool.and_eq_true] at hptail
            obtain ⟨-, hptail'⟩ := hptail
            have hfy3 : hfind bs3 y = some { yb with prev := b.prev } := by
              rw [hfind3 y hxy, hbs2, hfind_hmod, if_pos rfl, hfy]
              rfl
            simp only [chainPrev, hfy3]
            rw [Bool.and_eq_true]
            constructor
            · rw [hbp]; rfl
            · have hag_prev : ∀ t ∈ l',
                  (hfind bs3 t).map GcBox.prev = (hfind bs t).map GcBox.prev := by
                intro t ht
                have htx : ¬ t = x := fun he => hxl (he ▸ List.mem_cons_of_mem y ht)
                have hty : ¬ t = y := fun he => hyl' (he ▸ ht)
                rw [hfind3 t htx, hbs2, hfind_hmod, if_neg hty]
              rw [chainPrev_congr hag_prev]
              exact hptail'
        obtain ⟨bs', cs', heq, hnone⟩ :=
          ih bs3 (cset cs b.alloc none) b.next (col + 1) f hchain3 hprev3 hndl
            (fun t ht => (hag_mark t ht).trans (hmk t (List.mem_cons_of_mem x ht)))
            (by simpa using hfuel)
        refine ⟨bs', cs', ?_, ?_⟩
        · show sweepLoop (f + 1) bs cs (some x) (some x) col = _
          have hred : sweepLoop (f + 1) bs cs (some x) (some x) col
              = sweepLoop f bs3 (cset cs b.alloc none) b.next b.next (col + 1) := by
            simp only [sweepLoop, hfx, hbm, hbp, hbn, Bool.false_eq_true, reduceIte,
              hbs2, hbs3]
          rw [hred, heq]
          have : col + 1 + (y :: l').length = col + (x :: y :: l').length := by
            simp
            omega
          rw [this]
        · intro t ht
          rcases List.mem_cons.mp ht with rfl | hmem
          · have h3 : hfind bs3 t = none := by
              rw [hbs3, hfind_herase, if_pos rfl]
            have := sweepLoop_preserves_none f bs3 (cset cs b.alloc none)
              b.next b.next (col + 1) t h3
            rw [heq] at this
            exact this
          · exact hnone t hmem

/-- The general sweep lemma: over a well-formed chain split into an
already-processed fully marked prefix `s` and a remaining suffix `r`, the
sweep walks a prefix `r1` of `r` (all of `r` given enough fuel), keeps the
marked boxes of `r1` untouched, unlinks and drops the unmarked ones
(updating neighbour links and the pending head), and leaves a well-formed
doubly linked chain over the survivors. -/
theorem sweepLoop_general :
    ∀ (r : List Nat) (fuel : Nat) (s : List Nat) (bs : Boxes) (cs : Cells) (col : Nat),
      chainNext bs (s ++ r).head? (s ++ r) none = true →
      chainPrev bs none (s ++ r) = true →
      (s ++ r).Nodup →
      (∀ t ∈ s, markedB bs t = true) →
      ∃ r1 r2 bs' cs',
        r = r1 ++ r2 ∧
        (r.length ≤ fuel → r2 = []) ∧
        sweepLoop fuel bs cs r.head? (s ++ r).head? col
          = (bs', cs', (s ++ r1.filter (fun t => markedB bs t) ++ r2).head?,
             col + (r1.filter (fun t => ! markedB bs t)).length) ∧
        chainNext bs' (s ++ r1.filter (fun t => markedB bs t) ++ r2).head?
          (s ++ r1.filter (fun t => markedB bs t) ++ r2) none = true ∧
        chainPrev bs' none (s ++ r1.filter (fun t => markedB bs t) ++ r2) = true ∧
        (s ++ r1.filter (fun t => markedB bs t) ++ r2).Nodup ∧
        (∀ t ∈ s ++ r1.filter (fun t => markedB bs t) ++ r2,
          (hfind bs' t).map GcBox.mark = (hfind bs t).map GcBox.mark ∧
          (hfind bs' t).map GcBox.children = (hfind bs t).map GcBox.children ∧
          (hfind bs' t).map GcBox.alloc = (hfind bs t).map GcBox.alloc) ∧
        (∀ t ∈ r1, markedB bs t = false → hfind bs' t = none) := by
  intro r
  induction r with
  | nil =>
    intro fuel s bs cs col h1 h2 h3 _
    refine ⟨[], [], bs, cs, rfl, fun _ => rfl, ?_, ?_, ?_, ?_, ?_, ?_⟩
    · cases fuel <;> simp [sweepLoop]
    · simpa using h1
    · simpa using h2
    · simpa using h3
    · intro t _
      exact ⟨rfl, rfl, rfl⟩
    · intro t ht
      cases ht
  | cons x r' ih =>
    intro fuel s bs cs col h1 h2 h3 h4
    have h1' := h1
    rw [chainNext_append] at h1'
    rw [headOr_cons] at h1'
    rw [Bool.and_eq_true] at h1'
    obtain ⟨hS, hX⟩ := h1'
    have hXex : ∃ b, hfind bs x = some b ∧ chainNext bs b.next r' none = true := by
      simp only [chainNext] at hX
      rw [Bool.and_eq_true] at hX
      obtain ⟨-, hX2⟩ := hX
      cases hfx : hfind bs x with
      | none => rw [hfx] at hX2; cases hX2
      | some b => rw [hfx] at hX2; exact ⟨b, rfl, hX2⟩
    obtain ⟨b, hfx, hnext'⟩ := hXex
    have hbn : b.next = r'.head? := by
      rw [chainNext_entry hnext']
      cases r' <;> rfl
    have h2' := h2
    rw [chainPrev_append] at h2'
    rw [Bool.and_eq_true] at h2'
    obtain ⟨hPs, hPx⟩ := h2'
    have hPxd : b.prev = lastOr none s ∧ chainPrev bs (some x) r' = true := by
      simp only [chainPrev, hfx] at hPx
      rw [Bool.and_eq_true, beq_iff_eq] at hPx
      exact hPx
    obtain ⟨hbp, hPr'⟩ := hPxd
    obtain ⟨hndS, hndX, hdisj⟩ := List.nodup_append.mp h3
    have hxs : x ∉ s := fun hm => hdisj hm (List.mem_cons_self _ _)
    have hxr' : x ∉ r' := (List.nodup_cons.mp hndX).1
    have hndr' : r'.Nodup := (List.nodup_cons.mp hndX).2
    have hdisj' : List.Disjoint s r' := by
      intro a ha ha'
      exact hdisj ha (List.mem_cons_of_mem _ ha')
    have h3' : (s ++ r').Nodup := List.nodup_append.mpr ⟨hndS, hndr', hdisj'⟩
    cases fuel with
    | zero =>
      refine ⟨[], x :: r', bs, cs, rfl, ?_, ?_, ?_, ?_, ?_, ?_, ?_⟩
      · intro hle
        simp at hle
      · simp [sweepLoop]
      · simpa using h1
      · simpa using h2
      · simpa using h3
      · intro t _
        exact ⟨rfl, rfl, rfl⟩
      · intro t ht
        cases ht
    | succ f =>
      cases hmk : b.mark with
      | true =>
        have hmbx : markedB bs x = true := by unfold markedB; rw [hfx]; exact hmk
        have hEq1 : (s ++ [x]) ++ r' = s ++ x :: r' := by simp
        have hh1 : chainNext bs ((s ++ [x]) ++ r').head? ((s ++ [x]) ++ r') none = true := by
          rw [hEq1]; exact h1
        have hh2 : chainPrev bs none ((s ++ [x]) ++ r') = true := by
          rw [hEq1]; exact h2
        have hh3 : ((s ++ [x]) ++ r').Nodup := by rw [hEq1]; exact h3
        have hh4 : ∀ t ∈ s ++ [x], markedB bs t = true := by
          intro t ht
          rcases List.mem_append.mp ht with h | h
          · exact h4 t h
          · rw [List.mem_singleton.mp h]
            exact hmbx
        obtain ⟨r1', r2', bs', cs', hsp, hfu, htup, hcn, hcp, hnd, hag, hrm⟩ :=
          ih f (s ++ [x]) bs cs col hh1 hh2 hh3 hh4
        have hLL : s ++ (x :: r1').filter (fun t => markedB bs t) ++ r2'
            = (s ++ [x]) ++ r1'.filter (fun t => markedB bs t) ++ r2' := by
          simp [List.filter_cons, hmbx]
        refine ⟨x :: r1', r2', bs', cs', by simp [hsp], ?_, ?_, ?_, ?_, ?_, ?_, ?_⟩
        · intro hle
          apply hfu
          simp only [List.length_cons] at hle
          omega
        · show sweepLoop (f + 1) bs cs (some x) ((s ++ x :: r').head?) col = _
          rw [sweepLoop_marked_step cs f col ((s ++ x :: r').head?) hfx hmk, hbn]
          have hhd : (s ++ x :: r').head? = ((s ++ [x]) ++ r').head? := by rw [hEq1]
          rw [hhd, htup, hLL]
          have hcnt : ((x :: r1').filter (fun t => ! markedB bs t)).length
              = (r1'.filter (fun t => ! markedB bs t)).length := by
            simp [List.filter_cons, hmbx]
          rw [hcnt]
        · rw [hLL]; exact hcn
        · rw [hLL]; exact hcp
        · rw [hLL]; exact hnd
        · rw [hLL]; exact hag
        · intro t ht hmf
          rcases List.mem_cons.mp ht with rfl | hmem
          · rw [hmbx] at hmf; cases hmf
          · exact hrm t hmem hmf
      | false =>
        have hmbx : markedB bs x = false := by unfold markedB; rw [hfx]; exact hmk
        have hbp_not_r' : ∀ t ∈ r', ¬ b.prev = some t := by
          intro t ht he
          rw [hbp] at he
          rcases lastOr_cases none s with hcase | ⟨u, hu, hcase⟩
          · rw [hcase] at he; cases he
          · rw [hcase] at he
            exact hdisj' (Option.some.inj he ▸ hu) ht
        have hbn_not_s : ∀ t ∈ s, ¬ b.next = some t := by
          intro t ht he
          rw [hbn] at he
          cases r' with
          | nil => cases he
          | cons y r'' =>
            have hyt : y = t := Option.some.inj he
            exact hdisj' ht (hyt ▸ List.mem_cons_self y r'')
        have hagT : ∀ t, ¬ t = x →
            (hfind (unlinkHeap bs b.prev b.next x) t).map GcBox.mark
              = (hfind bs t).map GcBox.mark ∧
            (hfind (unlinkHeap bs b.prev b.next x) t).map GcBox.children
              = (hfind bs t).map GcBox.children ∧
            (hfind (unlinkHeap bs b.prev b.next x) t).map GcBox.alloc
              = (hfind bs t).map GcBox.alloc :=
          fun t htx =>
            ⟨hfind_unlinkHeap_map GcBox.mark (fun _ _ => rfl) (fun _ _ => rfl)
                bs b.prev b.next x t htx,
             hfind_unlinkHeap_map GcBox.children (fun _ _ => rfl) (fun _ _ => rfl)
                bs b.prev b.next x t htx,
             hfind_unlinkHeap_map GcBox.alloc (fun _ _ => rfl) (fun _ _ => rfl)
                bs b.prev b.next x t htx⟩
        have hmid : r'.head?.or none = b.next := by
          rw [hbn]
          cases r' <;> rfl
        have hcnR : chainNext (unlinkHeap bs b.prev b.next x) b.next r' none = true := by
          rw [chainNext_congr (fun t ht => hfind_unlinkHeap_next bs b.prev b.next x t
            (fun he => hxr' (he ▸ ht)) (hbp_not_r' t ht))]
          exact hnext'
        have hcnS : chainNext (unlinkHeap bs b.prev b.next x) (s ++ r').head? s
            (r'.head?.or none) = true := by
          rcases List.eq_nil_or_concat s with rfl | ⟨s0, p, hconc⟩
          · cases r' <;> simp [chainNext]
          · rw [List.concat_eq_append] at hconc
            subst hconc
            have hS' := hS
            rw [chainNext_append bs s0 [p]] at hS'
            rw [headOr_cons] at hS'
            rw [Bool.and_eq_true] at hS'
            obtain ⟨hS0, hSp⟩ := hS'
            have hbpp : b.prev = some p := by rw [hbp, lastOr_concat]
            have hpmem : p ∈ s0 ++ [p] := List.mem_append.mpr (Or.inr (List.mem_singleton_self p))
            have hpx : ¬ p = x := fun he => hxs (he ▸ hpmem)
            have hpn : ¬ b.next = some p := hbn_not_s p hpmem
            have hSpex : ∃ bp0, hfind bs p = some bp0 := by
              simp only [chainNext] at hSp
              rw [Bool.and_eq_true] at hSp
              obtain ⟨-, hsp2⟩ := hSp
              cases hfp : hfind bs p with
              | none => rw [hfp] at hsp2; cases hsp2
              | some bp0 => exact ⟨bp0, rfl⟩
            obtain ⟨bp0, hfp⟩ := hSpex
            have hfp3 : hfind (unlinkHeap bs b.prev b.next x) p
                = some { bp0 with next := b.next } := by
              rw [hbpp, hfind_unlinkHeap_p bs p b.next x hpx hpn, hfp]
              rfl
            have hps0 : p ∉ s0 := by
              have hnd0 := hndS
              rw [List.nodup_append] at hnd0
              exact fun hp => hnd0.2.2 hp (List.mem_singleton_self p)
            rw [chainNext_append (unlinkHeap bs b.prev b.next x) s0 [p]]
            rw [headOr_cons]
            rw [Bool.and_eq_true]
            constructor
            · have hag0 : ∀ t ∈ s0,
                  (hfind (unlinkHeap bs b.prev b.next x) t).map GcBox.next
                    = (hfind bs t).map GcBox.next := by
                intro t ht
                have htx : ¬ t = x :=
                  fun he => hxs (he ▸ List.mem_append.mpr (Or.inl ht))
                have htp : ¬ b.prev = some t := by
                  rw [hbpp]
                  intro he
                  exact hps0 (Option.some.inj he ▸ ht)
                exact hfind_unlinkHeap_next bs b.prev b.next x t htx htp
              have hhd : ((s0 ++ [p]) ++ r').head? = ((s0 ++ [p]) ++ x :: r').head? := by
                cases s0 <;> simp
              rw [chainNext_congr hag0, hhd]
              exact hS0
            · simp only [chainNext, hfp3]
              rw [Bool.and_eq_true]
              constructor
              · simp
              · rw [hmid]
                simp
        have hcn3 : chainNext (unlinkHeap bs b.prev b.next x) (s ++ r').head?
            (s ++ r') none = true := by
          rw [chainNext_append]
          rw [Bool.and_eq_true]
          refine ⟨hcnS, ?_⟩
          rw [hmid]
          exact hcnR
        have hcpS : chainPrev (unlinkHeap bs b.prev b.next x) none s = true := by
          rw [chainPrev_congr (fun t ht => hfind_unlinkHeap_prev bs b.prev b.next x t
            (fun he => hxs (he ▸ ht)) (hbn_not_s t ht))]
          exact hPs
        have hcpR : chainPrev (unlinkHeap bs b.prev b.next x) (lastOr none s) r' = true := by
          cases hr' : r' with
          | nil => rfl
          | cons y r'' =>
            rw [hr'] at hPr' hbn hxr' hndr' hdisj'
            have hPy : ∃ by0, hfind bs y = some by0 ∧ by0.prev = some x ∧
                chainPrev bs (some y) r'' = true := by
              simp only [chainPrev] at hPr'
              cases hfy : hfind bs y with
              | none => rw [hfy] at hPr'; cases hPr'
              | some by0 =>
                rw [hfy] at hPr'
                rw [Bool.and_eq_true, beq_iff_eq] at hPr'
                exact ⟨by0, rfl, hPr'.1, hPr'.2⟩
            obtain ⟨by0, hfy, hyprev, hPr''⟩ := hPy
            have hyx : ¬ y = x := fun he => hxr' (he ▸ List.mem_cons_self y r'')
            have hyp : ¬ b.prev = some y := hbp_not_r' y (hr' ▸ List.mem_cons_self y r'')
            have hfy3 : hfind (unlinkHeap bs b.prev b.next x) y
                = some { by0 with prev := b.prev } := by
              rw [show b.next = some y from hbn]
              rw [hfind_unlinkHeap_nx bs b.prev y x hyx hyp, hfy]
              rfl
            simp only [chainPrev, hfy3]
            rw [Bool.and_eq_true]
            constructor
            · show ((({ by0 with prev := b.prev } : GcBox).prev == lastOr none s)) = true
              rw [show ({ by0 with prev := b.prev } : GcBox).prev = b.prev from rfl, hbp]
              simp
            · have hag2 : ∀ t ∈ r'',
                  (hfind (unlinkHeap bs b.prev b.next x) t).map GcBox.prev
                    = (hfind bs t).map GcBox.prev := by
                intro t ht
                have htx : ¬ t = x :=
                  fun he => hxr' (he ▸ List.mem_cons_of_mem y ht)
                have htn : ¬ b.next = some t := by
                  rw [hbn]
                  intro he
                  have hndy := List.nodup_cons.mp hndr'
                  exact hndy.1 (Option.some.inj he ▸ ht)
                exact hfind_unlinkHeap_prev bs b.prev b.next x t htx htn
              rw [chainPrev_congr hag2]
              exact hPr''
        have hcp3 : chainPrev (unlinkHeap bs b.prev b.next x) none (s ++ r') = true := by
          rw [chainPrev_append]
          rw [Bool.and_eq_true]
          exact ⟨hcpS, hcpR⟩
        have hmk3 : ∀ t ∈ s, markedB (unlinkHeap bs b.prev b.next x) t = true := by
          intro t ht
          have htx : ¬ t = x := fun he => hxs (he ▸ ht)
          rw [markedB_congr (hagT t htx).1]
          exact h4 t ht
        obtain ⟨r1'', r2'', bs', cs', hsp, hfu, htup, hcn, hcp, hnd, hag, hrm⟩ :=
          ih f s (unlinkHeap bs b.prev b.next x) (cset cs b.alloc none)
            (col + 1) hcn3 hcp3 h3' hmk3
        have hmemr1 : ∀ t ∈ r1'', t ∈ r' := by
          intro t ht
          rw [hsp]
          exact List.mem_append.mpr (Or.inl ht)
        have hfagree : ∀ t ∈ r', markedB (unlinkHeap bs b.prev b.next x) t = markedB bs t :=
          fun t ht => markedB_congr (hagT t (fun he => hxr' (he ▸ ht))).1
        have hfilter1 : r1''.filter (fun t => markedB (unlinkHeap bs b.prev b.next x) t)
            = r1''.filter (fun t => markedB bs t) :=
          List.filter_congr (fun t ht => hfagree t (hmemr1 t ht))
        have hfilter2 : r1''.filter (fun t => ! markedB (unlinkHeap bs b.prev b.next x) t)
            = r1''.filter (fun t => ! markedB bs t) :=
          List.filter_congr (fun t ht => by rw [hfagree t (hmemr1 t ht)])
        have hstart' : (if (s ++ x :: r').head? = some x then b.next
            else (s ++ x :: r').head?) = (s ++ r').head? := by
          cases s with
          | nil => simp [hbn]
          | cons u s0 =>
            have hux : ¬ ((u :: s0) ++ x :: r').head? = some x := by
              intro he
              have : u = x := by
                have h' : some u = some x := he
                exact Option.some.inj h'
              exact hxs (this ▸ List.mem_cons_self u s0)
            rw [if_neg hux]
            simp
        have hLL : s ++ (x :: r1'').filter (fun t => markedB bs t) ++ r2''
            = s ++ r1''.filter (fun t => markedB (unlinkHeap bs b.prev b.next x) t) ++ r2'' := by
          rw [hfilter1]
          simp [List.filter_cons, hmbx]
        refine ⟨x :: r1'', r2'', bs', cs', by simp [hsp], ?_, ?_, ?_, ?_, ?_, ?_, ?_⟩
        · intro hle
          apply hfu
          simp only [List.length_cons] at hle
          omega
        · show sweepLoop (f + 1) bs cs (some x) ((s ++ x :: r').head?) col = _
          rw [← hbn] at htup
          rw [sweepLoop_unmarked_step cs f col ((s ++ x :: r').head?) hfx hmk,
            hstart', htup, hLL]
          have hcnt : ((x :: r1'').filter (fun t => ! markedB bs t)).length
              = (r1''.filter (fun t => ! markedB (unlinkHeap bs b.prev b.next x) t)).length
                  + 1 := by
            rw [hfilter2]
            simp [List.filter_cons, hmbx]
          rw [hcnt]
          have harith : col + ((r1''.filter
              (fun t => ! markedB (unlinkHeap bs b.prev b.next x) t)).length + 1)
              = (col + 1) + (r1''.filter
                (fun t => ! markedB (unlinkHeap bs b.prev b.next x) t)).length := by
            omega
          rw [harith]
        · rw [hLL]; exact hcn
        · rw [hLL]; exact hcp
        · rw [hLL]; exact hnd
        · rw [hLL]
          intro t ht
          have htx : ¬ t = x := by
            intro he
            subst he
            rcases List.mem_append.mp ht with hm | hm
            · rcases List.mem_append.mp hm with hm' | hm'
              · exact hxs hm'
              · exact hxr' (hmemr1 t (List.mem_of_mem_filter hm'))
            · apply hxr'
              rw [hsp]
              exact List.mem_append.mpr (Or.inr hm)
          obtain ⟨hm1, hm2, hm3⟩ := hag t ht
          exact ⟨hm1.trans (hagT t htx).1, hm2.trans (hagT t htx).2.1,
            hm3.trans (hagT t htx).2.2⟩
        · intro t ht hmf
          rcases List.mem_cons.mp ht with hte | hmem
          · subst hte
            have h3x : hfind (unlinkHeap bs b.prev b.next t) t = none :=
              hfind_unlinkHeap_x bs b.prev b.next t
            have hnone := sweepLoop_preserves_none f (unlinkHeap bs b.prev b.next t)
              (cset cs b.alloc none) r'.head? ((s ++ r').head?) (col + 1) t h3x
            rw [htup] at hnone
            exact hnone
          · have hmf3 : markedB (unlinkHeap bs b.prev b.next x) t = false := by
              rw [hfagree t (hmemr1 t hmem)]
              exact hmf
            exact hrm t hmem hmf3


/-! ### Mark-phase termination and no-panic machinery -/

/-- A found key/box pair is an entry of the heap. -/
theorem hfind_mem {bs : Boxes} {k : Nat} {b : GcBox} (h : hfind bs k = some b) :
    (k, b) ∈ bs := by
  induction bs with
  | nil => cases h
  | cons p bs ih =>
    obtain ⟨k', c⟩ := p
    by_cases hk : k = k'
    · subst hk
      rw [hfind_cons, if_pos rfl] at h
      rw [Option.some.inj h]
      exact List.mem_cons_self _ _
    · rw [hfind_cons, if_neg hk] at h
      exact List.mem_cons_of_mem _ (ih h)

theorem childrenLiveB_spec {cs : Cells} {bs : Boxes}
    (h : childrenLiveB cs bs = true) : ChildrenLive cs bs := by
  intro t b hb c hc
  have hmem := hfind_mem hb
  have h1 := List.all_eq_true.mp h _ hmem
  have h2 := List.all_eq_true.mp h1 c hc
  cases hcc : cellInner cs c with
  | none => rw [hcc] at h2; cases h2
  | some m =>
    rw [hcc] at h2
    exact ⟨m, rfl, h2⟩

theorem markLe_refl (b : GcBox) : markLe b b :=
  ⟨rfl, rfl, rfl, rfl, id⟩

theorem markLe_trans {b b' b'' : GcBox} (h1 : markLe b b') (h2 : markLe b' b'') :
    markLe b b'' :=
  ⟨h2.1.trans h1.1, h2.2.1.trans h1.2.1, h2.2.2.1.trans h1.2.2.1,
   h2.2.2.2.1.trans h1.2.2.2.1, fun hm => h2.2.2.2.2 (h1.2.2.2.2 hm)⟩

theorem MarkOnly_refl (bs : Boxes) : MarkOnly bs bs := by
  intro t
  cases h : hfind bs t with
  | none => exact Or.inl ⟨rfl, rfl⟩
  | some b => exact Or.inr ⟨b, b, rfl, rfl, markLe_refl b⟩

theorem MarkOnly_trans {bs bs' bs'' : Boxes}
    (h1 : MarkOnly bs bs') (h2 : MarkOnly bs' bs'') : MarkOnly bs bs'' := by
  intro t
  rcases h1 t with ⟨ha, hb⟩ | ⟨b, b', hb1, hb2, hle⟩
  · rcases h2 t with ⟨hc, hd⟩ | ⟨c, c', hc1, hc2, -⟩
    · exact Or.inl ⟨ha, hd⟩
    · rw [hb] at hc1; cases hc1
  · rcases h2 t with ⟨hc, hd⟩ | ⟨c, c', hc1, hc2, hle2⟩
    · rw [hb2] at hc; cases hc
    · rw [hb2] at hc1
      exact Or.inr ⟨b, c', hb1, hc2, markLe_trans hle (Option.some.inj hc1 ▸ hle2)⟩

theorem MarkOnly_hmod_mark (bs : Boxes) (n : Nat) :
    MarkOnly bs (hmod bs n (fun bb => { bb with mark := true })) := by
  intro t
  by_cases ht : t = n
  · subst ht
    cases h : hfind bs t with
    | none =>
      refine Or.inl ⟨rfl, ?_⟩
      rw [hfind_hmod, if_pos rfl, h]
      rfl
    | some b =>
      refine Or.inr ⟨b, { b with mark := true }, rfl, ?_, rfl, rfl, rfl, rfl, fun _ => rfl⟩
      rw [hfind_hmod, if_pos rfl, h]
      rfl
  · cases h : hfind bs t with
    | none =>
      refine Or.inl ⟨rfl, ?_⟩
      rw [hfind_hmod, if_neg ht]
      exact h
    | some b =>
      refine Or.inr ⟨b, b, rfl, ?_, markLe_refl b⟩
      rw [hfind_hmod, if_neg ht]
      exact h

theorem MarkOnly_isSome {bs bs' : Boxes} (h : MarkOnly bs bs') (t : Nat) :
    (hfind bs' t).isSome = (hfind bs t).isSome := by
  rcases h t with ⟨ha, hb⟩ | ⟨b, b', hb1, hb2, -⟩
  · rw [ha, hb]
  · rw [hb1, hb2]
    rfl

theorem MarkOnly_children {bs bs' : Boxes} (h : MarkOnly bs bs') (t : Nat) :
    (hfind bs' t).map GcBox.children = (hfind bs t).map GcBox.children := by
  rcases h t with ⟨ha, hb⟩ | ⟨b, b', hb1, hb2, hle⟩
  · rw [ha, hb]
  · rw [hb1, hb2]
    simp [hle.2.2.2.1]

theorem MarkOnly_next {bs bs' : Boxes} (h : MarkOnly bs bs') (t : Nat) :
    (hfind bs' t).map GcBox.next = (hfind bs t).map GcBox.next := by
  rcases h t with ⟨ha, hb⟩ | ⟨b, b', hb1, hb2, hle⟩
  · rw [ha, hb]
  · rw [hb1, hb2]
    simp [hle.1]

theorem MarkOnly_prev {bs bs' : Boxes} (h : MarkOnly bs bs') (t : Nat) :
    (hfind bs' t).map GcBox.prev = (hfind bs t).map GcBox.prev := by
  rcases h t with ⟨ha, hb⟩ | ⟨b, b', hb1, hb2, hle⟩
  · rw [ha, hb]
  · rw [hb1, hb2]
    simp [hle.2.1]

theorem MarkOnly_alloc {bs bs' : Boxes} (h : MarkOnly bs bs') (t : Nat) :
    (hfind bs' t).map GcBox.alloc = (hfind bs t).map GcBox.alloc := by
  rcases h t with ⟨ha, hb⟩ | ⟨b, b', hb1, hb2, hle⟩
  · rw [ha, hb]
  · rw [hb1, hb2]
    simp [hle.2.2.1]

/-- `hmod` does not change which keys are present. -/
theorem hfind_hmod_isSome (bs : Boxes) (k : Nat) (f : GcBox → GcBox) (h : Nat) :
    (hfind (hmod bs k f) h).isSome = (hfind bs h).isSome := by
  rw [hfind_hmod]
  by_cases hk : h = k
  · subst hk
    rw [if_pos rfl]
    cases hfind bs h <;> rfl
  · rw [if_neg hk]

/-- The unmark pass changes no field a mark-insensitive observation sees. -/
theorem unmarkLoop_map {α : Type} (g : GcBox → α)
    (hg : ∀ bb : GcBox, g { bb with mark := false } = g bb) :
    ∀ (fuel : Nat) (bs : Boxes) (cur : Option Nat) (tot : Nat) (k : Nat),
      (hfind (unmarkLoop bs fuel cur tot).1 k).map g = (hfind bs k).map g := by
  intro fuel
  induction fuel with
  | zero => intro bs cur tot k; rfl
  | succ f ih =>
    intro bs cur tot k
    cases cur with
    | none => rfl
    | some t =>
      cases hft : hfind bs t with
      | none => simp only [unmarkLoop, hft]
      | some b =>
        simp only [unmarkLoop, hft]
        rw [ih]
        exact hfind_hmod_map g (fun bb => { bb with mark := false }) hg bs t k

/-- The unmark pass changes no key's presence. -/
theorem unmarkLoop_isSome :
    ∀ (fuel : Nat) (bs : Boxes) (cur : Option Nat) (tot : Nat) (k : Nat),
      (hfind (unmarkLoop bs fuel cur tot).1 k).isSome = (hfind bs k).isSome := by
  intro fuel
  induction fuel with
  | zero => intro bs cur tot k; rfl
  | succ f ih =>
    intro bs cur tot k
    cases cur with
    | none => rfl
    | some t =>
      cases hft : hfind bs t with
      | none => simp only [unmarkLoop, hft]
      | some b =>
        simp only [unmarkLoop, hft]
        rw [ih]
        exact hfind_hmod_isSome bs t (fun bb => { bb with mark := false }) k

/-- Unlinking box `x` keeps every other key present. -/
theorem hfind_unlinkHeap_isSome (bs : Boxes) (bp bn : Option Nat) (x t : Nat)
    (htx : ¬ t = x) :
    (hfind (unlinkHeap bs bp bn x) t).isSome = (hfind bs t).isSome := by
  unfold unlinkHeap
  dsimp only
  rw [hfind_herase, if_neg htx]
  cases bn with
  | none =>
    cases bp with
    | none => rfl
    | some p => exact hfind_hmod_isSome bs p (fun pb => { pb with next := none }) t
  | some nx =>
    rw [hfind_hmod_isSome]
    cases bp with
    | none => rfl
    | some p => exact hfind_hmod_isSome bs p (fun pb => { pb with next := some nx }) t

/-- Any key present after a sweep was present before it. -/
theorem sweepLoop_isSome_shrink :
    ∀ (fuel : Nat) (bs : Boxes) (cs : Cells) (cur start : Option Nat) (col k : Nat),
      (hfind (sweepLoop fuel bs cs cur start col).1 k).isSome = true →
      (hfind bs k).isSome = true := by
  intro fuel
  induction fuel with
  | zero => intro bs cs cur start col k hk; exact hk
  | succ f ih =>
    intro bs cs cur start col k hk
    cases cur with
    | none => exact hk
    | some t =>
      cases hft : hfind bs t with
      | none =>
        simp only [sweepLoop, hft] at hk
        exact hk
      | some b =>
        cases hbm : b.mark with
        | true =>
          rw [sweepLoop_marked_step cs f col start hft hbm] at hk
          exact ih _ _ _ _ _ _ hk
        | false =>
          rw [sweepLoop_unmarked_step cs f col start hft hbm] at hk
          have h2 := ih _ _ _ _ _ _ hk
          by_cases hkt : k = t
          · subst hkt
            rw [hfind_unlinkHeap_x] at h2
            cases h2
          · rw [hfind_unlinkHeap_isSome bs b.prev b.next t k hkt] at h2
            exact h2

/-- A successful run of the mark recursion only sets mark bits. -/
theorem visitChildren_MarkOnly (cs : Cells) :
    ∀ (fuel : Nat) (bs : Boxes) (l : List Nat) (bs' : Boxes),
      visitChildren cs fuel bs l = some (Except.ok bs') → MarkOnly bs bs' := by
  intro fuel
  induction fuel with
  | zero =>
    intro bs l bs' h
    cases l with
    | nil =>
      have hb := Except.ok.inj (Option.some.inj h)
      rw [← hb]
      exact MarkOnly_refl bs
    | cons c rest => cases h
  | succ f ih =>
    intro bs l bs' h
    cases l with
    | nil =>
      have hb := Except.ok.inj (Option.some.inj h)
      rw [← hb]
      exact MarkOnly_refl bs
    | cons c rest =>
      simp only [visitChildren] at h
      cases hc : cellInner cs c with
      | none =>
        simp [hc] at h
      | some n =>
        simp only [hc] at h
        cases hfn : hfind bs n with
        | none =>
          simp [hfn] at h
        | some b =>
          simp only [hfn] at h
          cases hbm : b.mark with
          | true =>
            simp only [hbm, reduceIte] at h
            exact ih _ _ _ h
          | false =>
            simp only [hbm, Bool.false_eq_true, reduceIte] at h
            cases hv : visitChildren cs f
                (hmod bs n (fun bb => { bb with mark := true })) b.children with
            | none =>
              simp [hv] at h
            | some r1 =>
              simp only [hv] at h
              cases r1 with
              | error e => simp at h
              | ok bs1 =>
                exact MarkOnly_trans (MarkOnly_trans (MarkOnly_hmod_mark bs n)
                  (ih _ _ _ hv)) (ih _ _ _ h)

/-- A successful mark pass only sets mark bits. -/
theorem markRoots_MarkOnly (cs : Cells) (fuel : Nat) :
    ∀ (roots : List Nat) (bs bs' : Boxes),
      markRoots cs fuel bs roots = some (Except.ok bs') → MarkOnly bs bs' := by
  intro roots
  induction roots with
  | nil =>
    intro bs bs' h
    have hb := Except.ok.inj (Option.some.inj h)
    rw [← hb]
    exact MarkOnly_refl bs
  | cons r rest ih =>
    intro bs bs' h
    simp only [markRoots] at h
    cases hfr : hfind (hmod bs r (fun bb => { bb with mark := true })) r with
    | none =>
      simp only [hfr] at h
      exact MarkOnly_trans (MarkOnly_hmod_mark bs r) (ih _ _ h)
    | some b =>
      simp only [hfr] at h
      cases hv : visitChildren cs fuel
          (hmod bs r (fun bb => { bb with mark := true })) b.children with
      | none =>
        simp [hv] at h
      | some r1 =>
        simp only [hv] at h
        cases r1 with
        | error e => simp at h
        | ok bs2 =>
          exact MarkOnly_trans (MarkOnly_hmod_mark bs r)
            (MarkOnly_trans (visitChildren_MarkOnly cs fuel _ _ _ hv) (ih _ _ h))

/-- Backlink well-formedness restricts to any subset of the ids. -/
theorem allocsOK_subset {bs : Boxes} {l l' : List Nat}
    (hsub : ∀ t ∈ l', t ∈ l) (h : allocsOK bs l = true) :
    allocsOK bs l' = true := by
  unfold allocsOK at h ⊢
  rw [List.all_eq_true] at h ⊢
  intro t ht
  exact h t (hsub t ht)

/-- `Arena.collect` written out over its three phases. -/
theorem collect_eq (a : Arena) (fuel : Nat) :
    a.collect fuel
      = match markRoots a.cells fuel (unmarkLoop a.boxes fuel a.start 0).1 a.roots with
        | none => none
        | some (Except.error e) => some (Except.error e)
        | some (Except.ok bs2) =>
          some (Except.ok
            ({ a with
                boxes := (sweepLoop fuel bs2 a.cells a.start a.start 0).1
                cells := (sweepLoop fuel bs2 a.cells a.start a.start 0).2.1
                start := (sweepLoop fuel bs2 a.cells a.start a.start 0).2.2.1 },
             { total := (unmarkLoop a.boxes fuel a.start 0).2
               collected := (sweepLoop fuel bs2 a.cells a.start a.start 0).2.2.2 })) :=
  rfl

/-- A completed collection leaves a well-formed list (over some sublist of
the previous ids) and keeps every id below the freshness counter. -/
theorem collect_preserves {a : Arena} {l : List Nat} {fuel : Nat} {a' : Arena}
    {col : Collection}
    (hl : IsList a l) (hf : FreshOK a)
    (hok : a.collect fuel = some (Except.ok (a', col))) :
    ∃ l', IsList a' l' ∧ FreshOK a' := by
  obtain ⟨hn, hp, hal, hnd⟩ := hl
  rw [collect_eq] at hok
  cases hmr : markRoots a.cells fuel (unmarkLoop a.boxes fuel a.start 0).1 a.roots with
  | none =>
    rw [hmr] at hok
    cases hok
  | some r =>
    rw [hmr] at hok
    cases r with
    | error e => exact absurd hok (by simp)
    | ok bs2 =>
      simp only [Option.some.injEq, Except.ok.injEq, Prod.mk.injEq] at hok
      obtain ⟨ha', -⟩ := hok
      subst ha'
      have hmo : MarkOnly (unmarkLoop a.boxes fuel a.start 0).1 bs2 :=
        markRoots_MarkOnly a.cells fuel a.roots _ bs2 hmr
      have hn2 : chainNext bs2 a.start l none = true := by
        rw [chainNext_congr (fun t _ => MarkOnly_next hmo t),
          chainNext_congr (fun t _ => unmarkLoop_map GcBox.next (fun bb => rfl)
            fuel a.boxes a.start 0 t)]
        exact hn
      have hp2 : chainPrev bs2 none l = true := by
        rw [chainPrev_congr (fun t _ => MarkOnly_prev hmo t),
          chainPrev_congr (fun t _ => unmarkLoop_map GcBox.prev (fun bb => rfl)
            fuel a.boxes a.start 0 t)]
        exact hp
      have hal2 : allocsOK bs2 l = true := by
        rw [allocsOK_congr (fun t _ => MarkOnly_alloc hmo t),
          allocsOK_congr (fun t _ => unmarkLoop_map GcBox.alloc (fun bb => rfl)
            fuel a.boxes a.start 0 t)]
        exact hal
      have hstart : a.start = l.head? := by
        rw [chainNext_entry hn]
        cases l <;> rfl
      obtain ⟨r1, r2, bs', cs', hsp, hfu2, htup, hcn, hcp, hnd2, hag2, hrm2⟩ :=
        sweepLoop_general l fuel [] bs2 a.cells 0
          (by simp only [List.nil_append]; rw [← hstart]; exact hn2)
          (by simpa using hp2)
          (by simpa using hnd)
          (fun t ht => absurd ht (List.not_mem_nil t))
      simp only [List.nil_append] at htup hcn hcp hnd2 hag2
      have hsw : sweepLoop fuel bs2 a.cells a.start a.start 0
          = (bs', cs', (r1.filter (fun t => markedB bs2 t) ++ r2).head?,
             0 + (r1.filter (fun t => ! markedB bs2 t)).length) := by
        rw [hstart]
        exact htup
      have hsub : ∀ t ∈ r1.filter (fun t => markedB bs2 t) ++ r2, t ∈ l := by
        intro t ht
        rw [hsp]
        rcases List.mem_append.mp ht with hm | hm
        · exact List.mem_append.mpr (Or.inl (List.mem_of_mem_filter hm))
        · exact List.mem_append.mpr (Or.inr hm)
      refine ⟨r1.filter (fun t => markedB bs2 t) ++ r2, ⟨?_, ?_, ?_, ?_⟩, ?_⟩
      · show chainNext (sweepLoop fuel bs2 a.cells a.start a.start 0).1
          (sweepLoop fuel bs2 a.cells a.start a.start 0).2.2.1
          (r1.filter (fun t => markedB bs2 t) ++ r2) none = true
        rw [hsw]
        exact hcn
      · show chainPrev (sweepLoop fuel bs2 a.cells a.start a.start 0).1 none
          (r1.filter (fun t => markedB bs2 t) ++ r2) = true
        rw [hsw]
        exact hcp
      · show allocsOK (sweepLoop fuel bs2 a.cells a.start a.start 0).1
          (r1.filter (fun t => markedB bs2 t) ++ r2) = true
        rw [hsw]
        rw [allocsOK_congr (fun t ht => (hag2 t ht).2.2)]
        exact allocsOK_subset hsub hal2
      · exact hnd2
      · intro k hk
        have hk' : (hfind (sweepLoop fuel bs2 a.cells a.start a.start 0).1 k).isSome
            = true := hk
        exact hf k (by
          rw [← unmarkLoop_isSome fuel a.boxes a.start 0 k,
            ← MarkOnly_isSome hmo k]
          exact sweepLoop_isSome_shrink fuel bs2 a.cells a.start a.start 0 k hk')

/-- `make_root` changes at most the root vector. -/
theorem make_root_fields (a : Arena) (h : Nat) :
    (a.make_root h).boxes = a.boxes ∧ (a.make_root h).start = a.start ∧
    (a.make_root h).fresh = a.fresh := by
  unfold Arena.make_root
  cases hc : cellInner a.cells h with
  | none => exact ⟨rfl, rfl, rfl⟩
  | some n =>
    cases hr : a.roots.any (fun p => p = n) with
    | true => simp [hr]
    | false => simp [hr]

/-- A returning `unroot` changes at most the root vector. -/
theorem unroot_fields {a a' : Arena} {h : Nat} (hu : a.unroot h = some a') :
    a'.boxes = a.boxes ∧ a'.start = a.start ∧ a'.fresh = a.fresh := by
  unfold Arena.unroot at hu
  cases hroots : a.roots with
  | nil =>
    simp only [hroots] at hu
    have he := Option.some.inj hu
    rw [← he]
    exact ⟨rfl, rfl, rfl⟩
  | cons r rest =>
    simp only [hroots] at hu
    cases hc : cellInner a.cells h with
    | none =>
      simp [hc] at hu
    | some n =>
      simp only [hc] at hu
      have he := Option.some.inj hu
      rw [← he]
      exact ⟨rfl, rfl, rfl⟩

/-- Every reachable arena state carries a well-formed allocation list and
a sound freshness counter. -/
theorem Reaches_IsList : ∀ a : Arena, Reaches a → ∃ l, IsList a l ∧ FreshOK a := by
  intro a h
  induction h with
  | new =>
    refine ⟨[], by decide, ?_⟩
    intro k hk
    cases hk
  | gc a ch _ ih =>
    obtain ⟨l, hl, hf⟩ := ih
    have hg := gc_IsList hl hf ch
    exact ⟨a.fresh :: l, hg.1, hg.2⟩
  | root a ch _ ih =>
    obtain ⟨l, hl, hf⟩ := ih
    have hg := root_IsList hl hf ch
    exact ⟨a.fresh :: l, hg.1, hg.2⟩
  | make_root a h _ ih =>
    obtain ⟨l, hl, hf⟩ := ih
    obtain ⟨hb, hs, hfr⟩ := make_root_fields a h
    obtain ⟨h1, h2, h3, h4⟩ := hl
    refine ⟨l, ⟨?_, ?_, ?_, h4⟩, ?_⟩
    · rw [hb, hs]; exact h1
    · rw [hb]; exact h2
    · rw [hb]; exact h3
    · intro k hk
      rw [hb] at hk
      rw [hfr]
      exact hf k hk
  | unroot a a' h _ hu ih =>
    obtain ⟨l, hl, hf⟩ := ih
    obtain ⟨hb, hs, hfr⟩ := unroot_fields hu
    obtain ⟨h1, h2, h3, h4⟩ := hl
    refine ⟨l, ⟨?_, ?_, ?_, h4⟩, ?_⟩
    · rw [hb, hs]; exact h1
    · rw [hb]; exact h2
    · rw [hb]; exact h3
    · intro k hk
      rw [hb] at hk
      rw [hfr]
      exact hf k hk
  | collect a a' fuel col _ hok ih =>
    obtain ⟨l, hl, hf⟩ := ih
    obtain ⟨l', hl', hf'⟩ := collect_preserves hl hf hok
    exact ⟨l', hl', hf'⟩

theorem MarkOnly_ChildrenLive (cs : Cells) {bs bs' : Boxes}
    (h : MarkOnly bs bs') (hcl : ChildrenLive cs bs) : ChildrenLive cs bs' := by
  intro t b' hb' c hc
  rcases h t with ⟨ha, hb⟩ | ⟨b, b2, hb1, hb2, hle⟩
  · rw [hb] at hb'; cases hb'
  · rw [hb2] at hb'
    have hbb : b2 = b' := Option.some.inj hb'
    subst hbb
    rw [hle.2.2.2.1] at hc
    obtain ⟨m, hm1, hm2⟩ := hcl t b hb1 c hc
    exact ⟨m, hm1, (MarkOnly_isSome h m).trans hm2⟩

/-- `ChildrenLive` only depends on presence and children. -/
theorem ChildrenLive_congr {cs : Cells} {bs bs' : Boxes}
    (hag : ∀ t, (hfind bs' t).map GcBox.children = (hfind bs t).map GcBox.children) :
    ChildrenLive cs bs → ChildrenLive cs bs' := by
  intro hcl t b' hb' c hc
  have h1 := hag t
  rw [hb'] at h1
  cases hft : hfind bs t with
  | none => rw [hft] at h1; cases h1
  | some b =>
    rw [hft] at h1
    simp only [Option.map_some'] at h1
    have hch : b'.children = b.children := Option.some.inj h1
    rw [hch] at hc
    obtain ⟨m, hm1, hm2⟩ := hcl t b hft c hc
    refine ⟨m, hm1, ?_⟩
    have h2 := hag m
    cases hfm' : hfind bs' m with
    | none =>
      rw [hfm'] at h2
      cases hfm : hfind bs m with
      | none => rw [hfm] at hm2; cases hm2
      | some bm => rw [hfm] at h2; cases h2
    | some bm' => rfl

theorem Phi_cons (k : Nat) (c : GcBox) (bs : Boxes) :
    Phi ((k, c) :: bs) = (if c.mark then 0 else c.children.length + 1) + Phi bs := by
  simp [Phi]

theorem totalWork_cons (k : Nat) (c : GcBox) (bs : Boxes) :
    totalWork ((k, c) :: bs) = (c.children.length + 1) + totalWork bs := by
  simp [totalWork]

theorem Phi_hmod_mark_le (bs : Boxes) (n : Nat) :
    Phi (hmod bs n (fun bb => { bb with mark := true })) ≤ Phi bs := by
  induction bs with
  | nil => exact le_refl _
  | cons p bs ih =>
    obtain ⟨k, c⟩ := p
    by_cases hk : n = k
    · simp only [hmod, if_pos hk, Phi_cons]
      have h1 := ih
      cases hcm : c.mark <;> simp [hcm] <;> omega
    · simp only [hmod, if_neg hk, Phi_cons]
      omega

theorem Phi_hmod_mark_lt {bs : Boxes} {n : Nat} {b : GcBox}
    (hb : hfind bs n = some b) (hm : b.mark = false) :
    Phi (hmod bs n (fun bb => { bb with mark := true })) + b.children.length + 1 ≤ Phi bs := by
  induction bs with
  | nil => cases hb
  | cons p bs ih =>
    obtain ⟨k, c⟩ := p
    by_cases hk : n = k
    · have hcb : c = b := by
        have hb2 : (if n = k then some c else hfind bs n) = some b := hb
        rw [if_pos hk] at hb2
        exact Option.some.inj hb2
      subst hcb
      simp only [hmod, if_pos hk, Phi_cons]
      have h1 := Phi_hmod_mark_le bs n
      simp [hm]
      omega
    · have hb' : hfind bs n = some b := by
        have hb2 : (if n = k then some c else hfind bs n) = some b := hb
        rw [if_neg hk] at hb2
        exact hb2
      simp only [hmod, if_neg hk, Phi_cons]
      have := ih hb'
      omega

theorem totalWork_hmod (f : GcBox → GcBox) (hf : ∀ b, (f b).children = b.children)
    (bs : Boxes) (n : Nat) : totalWork (hmod bs n f) = totalWork bs := by
  induction bs with
  | nil => rfl
  | cons p bs ih =>
    obtain ⟨k, c⟩ := p
    by_cases hk : n = k
    · simp only [hmod, if_pos hk, totalWork_cons, hf, ih]
    · simp only [hmod, if_neg hk, totalWork_cons, ih]

theorem totalWork_foldl_hmod (f : GcBox → GcBox) (hf : ∀ b, (f b).children = b.children) :
    ∀ (l : List Nat) (bs : Boxes),
      totalWork (l.foldl (fun bs k => hmod bs k f) bs) = totalWork bs := by
  intro l
  induction l with
  | nil => intro bs; rfl
  | cons x l ih =>
    intro bs
    rw [List.foldl_cons, ih, totalWork_hmod f hf]

theorem Phi_le_totalWork (bs : Boxes) : Phi bs ≤ totalWork bs := by
  induction bs with
  | nil => exact le_refl _
  | cons p bs ih =>
    obtain ⟨k, c⟩ := p
    rw [Phi_cons, totalWork_cons]
    cases hcm : c.mark <;> simp <;> omega

theorem children_le_totalWork {bs : Boxes} {n : Nat} {b : GcBox}
    (hb : hfind bs n = some b) : b.children.length + 1 ≤ totalWork bs := by
  induction bs with
  | nil => cases hb
  | cons p bs ih =>
    obtain ⟨k, c⟩ := p
    by_cases hk : n = k
    · have hcb : c = b := by
        have hb2 : (if n = k then some c else hfind bs n) = some b := hb
        rw [if_pos hk] at hb2
        exact Option.some.inj hb2
      subst hcb
      rw [totalWork_cons]
      omega
    · have hb' : hfind bs n = some b := by
        have hb2 : (if n = k then some c else hfind bs n) = some b := hb
        rw [if_neg hk] at hb2
        exact hb2
      rw [totalWork_cons]
      have := ih hb'
      omega

/-- The mark recursion terminates and cannot fail when every child handle
in scope is live: with fuel at least the worklist length plus the
remaining-work potential it returns successfully, only ever setting mark
bits (which keeps the potential non-increasing and the total work
constant). -/
theorem visitChildren_ok (cs : Cells) :
    ∀ (fuel : Nat) (bs : Boxes) (l : List Nat),
      ChildrenLive cs bs →
      (∀ c ∈ l, ∃ m, cellInner cs c = some m ∧ (hfind bs m).isSome = true) →
      l.length + Phi bs ≤ fuel →
      ∃ bs', visitChildren cs fuel bs l = some (Except.ok bs') ∧
        MarkOnly bs bs' ∧ Phi bs' ≤ Phi bs ∧ totalWork bs' = totalWork bs := by
  intro fuel
  induction fuel with
  | zero =>
    intro bs l hcl hl hf
    have hnil : l = [] := by
      cases l with
      | nil => rfl
      | cons c rest => simp at hf
    subst hnil
    exact ⟨bs, visitChildren_nil _ _ _, MarkOnly_refl bs, le_refl _, rfl⟩
  | succ f ih =>
    intro bs l hcl hl hf
    cases l with
    | nil => exact ⟨bs, visitChildren_nil _ _ _, MarkOnly_refl bs, le_refl _, rfl⟩
    | cons c rest =>
      obtain ⟨m, hcm, hsm⟩ := hl c (List.mem_cons_self _ _)
      obtain ⟨b, hb⟩ := Option.isSome_iff_exists.mp hsm
      have hf' : rest.length + Phi bs ≤ f := by
        simp only [List.length_cons] at hf
        omega
      cases hbm : b.mark with
      | true =>
        have step : visitChildren cs (f + 1) bs (c :: rest) = visitChildren cs f bs rest := by
          simp only [visitChildren, hcm, hb, hbm, reduceIte]
        obtain ⟨bs', h1, h2, h3, h4⟩ :=
          ih bs rest hcl (fun c' hc' => hl c' (List.mem_cons_of_mem _ hc')) hf'
        exact ⟨bs', step.trans h1, h2, h3, h4⟩
      | false =>
        set bs1 := hmod bs m (fun bb => { bb with mark := true }) with hbs1
        have hMO1 : MarkOnly bs bs1 := MarkOnly_hmod_mark bs m
        have hPhi1 : Phi bs1 + b.children.length + 1 ≤ Phi bs := Phi_hmod_mark_lt hb hbm
        have hcl1 : ChildrenLive cs bs1 := MarkOnly_ChildrenLive cs hMO1 hcl
        have hb1 : hfind bs1 m = some { b with mark := true } := by
          rw [hbs1, hfind_hmod, if_pos rfl, hb]
          rfl
        have hlch : ∀ c' ∈ b.children,
            ∃ m', cellInner cs c' = some m' ∧ (hfind bs1 m').isSome = true :=
          hcl1 m { b with mark := true } hb1
        obtain ⟨bs2, hv2, hMO2, hPhi2, hTW2⟩ :=
          ih bs1 b.children hcl1 hlch (by omega)
        have hcl2 : ChildrenLive cs bs2 := MarkOnly_ChildrenLive cs hMO2 hcl1
        have hlrest : ∀ c' ∈ rest,
            ∃ m', cellInner cs c' = some m' ∧ (hfind bs2 m').isSome = true := by
          intro c' hc'
          obtain ⟨m', h1', h2'⟩ := hl c' (List.mem_cons_of_mem _ hc')
          exact ⟨m', h1',
            (MarkOnly_isSome (MarkOnly_trans hMO1 hMO2) m').trans h2'⟩
        obtain ⟨bs3, hv3, hMO3, hPhi3, hTW3⟩ := ih bs2 rest hcl2 hlrest (by omega)
        have step : visitChildren cs (f + 1) bs (c :: rest) = visitChildren cs f bs2 rest := by
          simp only [visitChildren, hcm, hb, hbm, Bool.false_eq_true, reduceIte, ← hbs1, hv2]
        refine ⟨bs3, step.trans hv3, MarkOnly_trans (MarkOnly_trans hMO1 hMO2) hMO3,
          by omega, ?_⟩
        rw [hTW3, hTW2, hbs1, totalWork_hmod (fun bb => { bb with mark := true }) (fun _ => rfl)]

/-- The root-marking loop terminates and cannot fail when every stored
child handle is live, given fuel at least twice the total work bound. -/
theorem markRoots_ok (cs : Cells) (fuel : Nat) :
    ∀ (roots : List Nat) (bs : Boxes),
      ChildrenLive cs bs →
      2 * totalWork bs ≤ fuel →
      ∃ bs', markRoots cs fuel bs roots = some (Except.ok bs') ∧
        MarkOnly bs bs' ∧ totalWork bs' = totalWork bs := by
  intro roots
  induction roots with
  | nil => intro bs _ _; exact ⟨bs, rfl, MarkOnly_refl bs, rfl⟩
  | cons r rest ih =>
    intro bs hcl hf
    set bs1 := hmod bs r (fun bb => { bb with mark := true }) with hbs1
    have hMO1 : MarkOnly bs bs1 := MarkOnly_hmod_mark bs r
    have hTW1 : totalWork bs1 = totalWork bs := by
      rw [hbs1, totalWork_hmod (fun bb => { bb with mark := true }) (fun _ => rfl)]
    have hcl1 : ChildrenLive cs bs1 := MarkOnly_ChildrenLive cs hMO1 hcl
    cases hbr : hfind bs1 r with
    | none =>
      have step : markRoots cs fuel bs (r :: rest) = markRoots cs fuel bs1 rest := by
        simp only [markRoots, ← hbs1, hbr]
      obtain ⟨bs', h1, h2, h3⟩ := ih bs1 hcl1 (by omega)
      exact ⟨bs', step.trans h1, MarkOnly_trans hMO1 h2, by rw [h3, hTW1]⟩
    | some b =>
      have hch := hcl1 r b hbr
      have hfb : b.children.length + 1 ≤ totalWork bs1 := children_le_totalWork hbr
      have hPhi : Phi bs1 ≤ totalWork bs1 := Phi_le_totalWork bs1
      obtain ⟨bs2, hv, hMO2, hPhi2, hTW2⟩ :=
        visitChildren_ok cs fuel bs1 b.children hcl1 hch (by omega)
      have step : markRoots cs fuel bs (r :: rest) = markRoots cs fuel bs2 rest := by
        simp only [markRoots, ← hbs1, hbr, hv]
      obtain ⟨bs', h1, h2, h3⟩ := ih bs2 (MarkOnly_ChildrenLive cs hMO2 hcl1)
        (by omega)
      exact ⟨bs', step.trans h1,
        MarkOnly_trans (MarkOnly_trans hMO1 hMO2) h2, by rw [h3, hTW2, hTW1]⟩

/-! ### Claim theorems -/

/-- Claim C4, amended: `Visitor::visit` on an already-marked allocation
returns at once without re-invoking that allocation's trace; on an
unmarked allocation it sets the mark bit before recursing into the
value's trace; and consequently `collect()` terminates on every object
graph, including cyclic ones — and never fails provided every child
handle reported during tracing refers to a live (uncollected)
allocation. (The unamended "never fails" is refuted by
`c4_collect_panic_counterexample`: tracing a dead child handle hits
`Option::unwrap` on `None`.) Termination appears as fuel sufficiency:
fuel at least the allocation-list length and twice the size+edges bound
always yields a successful result. -/
theorem c4_visit_marking_and_collect_termination :
    (∀ (cs : Cells) (fuel : Nat) (bs : Boxes) (h n : Nat) (b : GcBox),
      cellInner cs h = some n → hfind bs n = some b → b.mark = true →
      visit cs (fuel + 1) bs h = some (Except.ok bs)) ∧
    (∀ (cs : Cells) (fuel : Nat) (bs : Boxes) (h n : Nat) (b : GcBox),
      cellInner cs h = some n → hfind bs n = some b → b.mark = false →
      visit cs (fuel + 1) bs h
        = visitChildren cs fuel (hmod bs n (fun bb => { bb with mark := true })) b.children ∧
      hfind (hmod bs n (fun bb => { bb with mark := true })) n
        = some { b with mark := true }) ∧
    (∀ (a : Arena) (l : List Nat) (fuel : Nat),
      IsList a l → childrenLiveB a.cells a.boxes = true →
      l.length ≤ fuel → 2 * totalWork a.boxes ≤ fuel →
      ∃ a' c, a.collect fuel = some (Except.ok (a', c))) := by
  refine ⟨?_, ?_, ?_⟩
  · intro cs fuel bs h n b hcm hb hbm
    show visitChildren cs (fuel + 1) bs [h] = some (Except.ok bs)
    simp only [visitChildren, hcm, hb, hbm, reduceIte, visitChildren_nil]
  · intro cs fuel bs h n b hcm hb hbm
    constructor
    · show visitChildren cs (fuel + 1) bs [h] = _
      simp only [visitChildren, hcm, hb, hbm, Bool.false_eq_true, reduceIte]
      cases hv : visitChildren cs fuel
          (hmod bs n (fun bb => { bb with mark := true })) b.children with
      | none => rfl
      | some r =>
        cases r with
        | error e => rfl
        | ok bs' => rfl
    · rw [hfind_hmod, if_pos rfl, hb]
      rfl
  · intro a l fuel hlist hclb hfuel1 hfuel2
    obtain ⟨hnext, -, -, -⟩ := hlist
    have hunm := unmarkLoop_spec l a.boxes a.start 0 fuel hnext hfuel1
    set bsU := unmarkAll a.boxes l with hbsU
    have hagc : ∀ t,
        (hfind bsU t).map GcBox.children = (hfind a.boxes t).map GcBox.children := by
      intro t
      rw [hbsU]
      exact hfind_foldl_hmod_map GcBox.children (fun b => { b with mark := false })
        (fun _ => rfl) l a.boxes t
    have hclU : ChildrenLive a.cells bsU :=
      ChildrenLive_congr hagc (childrenLiveB_spec hclb)
    have hTWU : totalWork bsU = totalWork a.boxes := by
      rw [hbsU]
      exact totalWork_foldl_hmod (fun b => { b with mark := false })
        (fun _ => rfl) l a.boxes
    obtain ⟨bsM, hmark, -, -⟩ := markRoots_ok a.cells fuel a.roots bsU hclU (by omega)
    have hcoll : a.collect fuel
        = some (Except.ok
            ({ a with boxes := (sweepLoop fuel bsM a.cells a.start a.start 0).1,
                      cells := (sweepLoop fuel bsM a.cells a.start a.start 0).2.1,
                      start := (sweepLoop fuel bsM a.cells a.start a.start 0).2.2.1 },
             { total := 0 + l.length,
               collected := (sweepLoop fuel bsM a.cells a.start a.start 0).2.2.2 })) := by
      unfold Arena.collect
      rw [hunm]
      dsimp only
      rw [hmark]
    exact ⟨_, _, hcoll⟩

/-- Counterexample to C4 as stated: after one allocation is collected, a
rooted container holding the dead handle makes the next `collect()` panic
(unwrap of the emptied indirection cell inside `Visitor::visit`), so
`collect` does not "never fail". -/
theorem c4_collect_panic_counterexample :
    liveB c4P2.1 c4P1.2 = false ∧
    (c4P2.1).collect 5 = some (Except.error unwrapMsg) ∧
    (c4P2.1).collect 50 = some (Except.error unwrapMsg) := by decide

/-- Witness for C4 at concrete inputs: a marked singleton heap is not
re-traced, and `collect` succeeds on a one-allocation rooted arena. -/
theorem c4_visit_marking_and_collect_termination_witness :
    visit [(0, some 0)] 1
      [(0, { mark := true, next := none, prev := none, alloc := 0, children := [] })] 0
      = some (Except.ok
          [(0, { mark := true, next := none, prev := none, alloc := 0, children := [] })]) ∧
    (∃ a' c, ((Arena.new.root []).1).collect 2 = some (Except.ok (a', c))) :=
  ⟨c4_visit_marking_and_collect_termination.1 [(0, some 0)] 0
      [(0, { mark := true, next := none, prev := none, alloc := 0, children := [] })] 0 0
      { mark := true, next := none, prev := none, alloc := 0, children := [] }
      (by decide) (by decide) (by decide),
   c4_visit_marking_and_collect_termination.2.2 ((Arena.new.root []).1) [0] 2
      (by decide) (by decide) (by decide) (by decide)⟩

/-- Claim C3: in an arena with exactly 3 allocations where one rooted
container holds a handle to one child and the third allocation is
referenced by nothing, `collect()` returns `total == 3` and
`collected == 1`; the rooted container and its transitively reachable
child survive, and only the unreferenced sibling is collected. -/
theorem c3_transitive_reachability :
    c3Result = some { total := 3, collected := 1 } ∧
    liveB c3After c3P3.2 = true ∧
    liveB c3After c3P1.2 = true ∧
    liveB c3After c3P2.2 = false := by decide

/-- Claim C5: for a handle whose allocation has been collected (its
indirection cell is empty), `try_as_ref`/`try_as_mut` return `none` while
`as_ref`/`as_mut` (and `Deref`/`DerefMut`, which delegate to them) panic
with the diagnostic "Gc::as_ref on collected object" /
"Gc::as_mut on collected object"; for a handle whose allocation is live,
all of them return the value. All accessors are pure reads: they produce
no successor state. -/
theorem c5_liveness_checked_access :
    (∀ (a : Arena) (h : Nat), cellInner a.cells h = none →
      Gc.try_as_ref a h = none ∧ Gc.try_as_mut a h = none ∧
      Gc.as_ref a h = Except.error asRefMsg ∧
      Gc.as_mut a h = Except.error asMutMsg ∧
      Gc.deref a h = Except.error asRefMsg ∧
      Gc.deref_mut a h = Except.error asMutMsg) ∧
    (∀ (a : Arena) (h n : Nat) (b : GcBox),
      cellInner a.cells h = some n → hfind a.boxes n = some b →
      Gc.try_as_ref a h = some b.children ∧ Gc.try_as_mut a h = some b.children ∧
      Gc.as_ref a h = Except.ok b.children ∧ Gc.as_mut a h = Except.ok b.children ∧
      Gc.deref a h = Except.ok b.children ∧ Gc.deref_mut a h = Except.ok b.children) := by
  constructor
  · intro a h hc
    simp [Gc.try_as_ref, Gc.try_as_mut, Gc.as_ref, Gc.as_mut, Gc.deref, Gc.deref_mut, hc]
  · intro a h n b hc hb
    simp [Gc.try_as_ref, Gc.try_as_mut, Gc.as_ref, Gc.as_mut, Gc.deref, Gc.deref_mut, hc, hb]

/-- Witness for C5 at concrete inputs: handle 0 in the empty arena is
collected; handle 0 right after one allocation is live. -/
theorem c5_liveness_checked_access_witness :
    Gc.try_as_ref Arena.new 0 = none ∧
    Gc.as_ref Arena.new 0 = Except.error asRefMsg ∧
    Gc.try_as_ref (Arena.new.gc []).1 0 = some [] ∧
    Gc.as_ref (Arena.new.gc []).1 0 = Except.ok [] :=
  ⟨(c5_liveness_checked_access.1 Arena.new 0 (by decide)).1,
   (c5_liveness_checked_access.1 Arena.new 0 (by decide)).2.2.1,
   (c5_liveness_checked_access.2 (Arena.new.gc []).1 0 0
      { mark := false, next := none, prev := none, alloc := 0, children := [] }
      (by decide) (by decide)).1,
   (c5_liveness_checked_access.2 (Arena.new.gc []).1 0 0
      { mark := false, next := none, prev := none, alloc := 0, children := [] }
      (by decide) (by decide)).2.2.1⟩

/-- Claim C6 (code bug): with handle 0 collected and the root set
non-empty (it still holds the surviving allocation 1), `make_root` is
indeed a harmless no-op, but `unroot` panics: the source unwraps the
handle's emptied indirection cell inside the filter closure, so the
claimed "harmless no-op for remove_root" fails. -/
theorem c6_unroot_on_collected_panics :
    liveB c6After 0 = false ∧
    c6After.roots = [1] ∧
    Arena.make_root c6After 0 = c6After ∧
    c6After.unroot 0 = none := by decide

/-- Claim C7: `make_root` is idempotent (five calls equal one), a
`make_root` call adds at most one entry for the allocation (membership by
pointer identity), one `unroot` removes every entry for it, and in the
concrete one-allocation pipeline the five-times-rooted allocation survives
one `collect` (`{1, 0}`), and after a single `unroot` the next `collect`
reclaims it (`{1, 1}`). -/
theorem c7_idempotent_rooting :
    (∀ (a : Arena) (h : Nat),
      Arena.make_root (Arena.make_root (Arena.make_root (Arena.make_root
        (Arena.make_root a h) h) h) h) h = Arena.make_root a h) ∧
    (∀ (a : Arena) (h n : Nat), cellInner a.cells h = some n →
      (Arena.make_root a h).roots.count n ≤ a.roots.count n + 1 ∧
      n ∈ (Arena.make_root a h).roots) ∧
    (∀ (a : Arena) (h n : Nat), cellInner a.cells h = some n →
      a.unroot h = some { a with roots := a.roots.filter (fun p => ¬ p = n) } ∧
      (a.roots.filter (fun p => ¬ p = n)).count n = 0) ∧
    (c7Five.roots = [0] ∧
     (match c7Five.collect 3 with
      | some (Except.ok p) => some p.2
      | _ => none) = some { total := 1, collected := 0 } ∧
     c7AfterUnroot.roots = [] ∧
     (match c7AfterUnroot.collect 3 with
      | some (Except.ok p) => some p.2
      | _ => none) = some { total := 1, collected := 1 }) := by
  refine ⟨?_, ?_, ?_, by decide⟩
  · intro a h
    rw [make_root_idem, make_root_idem, make_root_idem, make_root_idem]
  · intro a h n hc
    by_cases hmem : a.roots.any (fun p => p = n)
    · have hmem' : n ∈ a.roots := by
        rcases List.any_eq_true.mp hmem with ⟨x, hx, hxn⟩
        exact (of_decide_eq_true hxn) ▸ hx
      constructor
      · simp [Arena.make_root, hc, hmem]
      · simp [Arena.make_root, hc, hmem, hmem']
    · constructor
      · simp [Arena.make_root, hc, hmem, List.count_append]
      · simp [Arena.make_root, hc, hmem]
  · intro a h n hc
    refine ⟨unroot_live hc, ?_⟩
    rw [List.count_eq_zero]
    intro hmem
    have := List.of_mem_filter hmem
    simp at this

/-- Witness for C7 at concrete inputs: rooting handle 0 of a fresh
one-allocation arena. -/
theorem c7_idempotent_rooting_witness :
    (Arena.make_root c7Arena 0).roots.count 0 ≤ c7Arena.roots.count 0 + 1 ∧
    c7Arena.unroot 0 = some { c7Arena with roots := [] } :=
  ⟨(c7_idempotent_rooting.2.1 c7Arena 0 0 (by decide)).1,
   (c7_idempotent_rooting.2.2.1 c7Arena 0 0 (by decide)).1⟩

/-- Claim C9 (modelled from the spec, since `Gc::ptr_eq` is absent from
`src/lib.rs` though exercised by the tests): the identity comparison is
true on clones of one handle (which share the indirection cell),
symmetric, and false between handles of two distinct allocations. -/
theorem c9_same_allocation_identity :
    (∀ h : Nat, Gc.ptr_eq (Gc.clone h) h = true ∧ Gc.ptr_eq h (Gc.clone h) = true) ∧
    (∀ h1 h2 : Nat, Gc.ptr_eq h1 h2 = Gc.ptr_eq h2 h1) ∧
    (∀ (a : Arena) (ch ch2 : List Nat),
      Gc.ptr_eq ((a.gc ch).2) (((a.gc ch).1.gc ch2).2) = false ∧
      Gc.ptr_eq (((a.gc ch).1.gc ch2).2) ((a.gc ch).2) = false) := by
  refine ⟨fun h => ⟨?_, ?_⟩, fun h1 h2 => ?_, fun a ch ch2 => ⟨?_, ?_⟩⟩
  · simp [Gc.ptr_eq, Gc.clone]
  · simp [Gc.ptr_eq, Gc.clone]
  · by_cases h : h1 = h2
    · simp [Gc.ptr_eq, h]
    · have h' : ¬ h2 = h1 := fun he => h he.symm
      simp [Gc.ptr_eq, h, h']
  · show Gc.ptr_eq a.fresh (a.fresh + 1) = false
    simp [Gc.ptr_eq]
  · show Gc.ptr_eq (a.fresh + 1) a.fresh = false
    simp [Gc.ptr_eq]

/-- Claim C1: for every arena whose allocations form a well-formed list of
exactly N allocations, all rooted (the root set and the allocation list
have the same members) and holding no child handles, `collect()` returns
`total == N, collected == 0` and every allocation remains live. -/
theorem c1_root_retention (a : Arena) (l : List Nat) (N fuel : Nat)
    (hlist : IsList a l) (hlen : l.length = N)
    (hchild : ∀ t ∈ l, (hfind a.boxes t).map GcBox.children = some [])
    (hrl : ∀ t ∈ l, t ∈ a.roots) (hlr : ∀ t ∈ a.roots, t ∈ l)
    (hcells : ∀ t ∈ l, cellInner a.cells t = some t)
    (hfuel : N ≤ fuel) :
    ∃ a', a.collect fuel = some (Except.ok (a', { total := N, collected := 0 })) ∧
      ∀ t ∈ l, liveB a' t = true := by
  subst hlen
  obtain ⟨hnext, hprev, halloc, hnodup⟩ := hlist
  have hunm := unmarkLoop_spec l a.boxes a.start 0 fuel hnext hfuel
  set bsU := unmarkAll a.boxes l with hbsU
  have hUchild : ∀ r ∈ a.roots, (hfind bsU r).map GcBox.children = some [] := by
    intro r hr
    have hrl' := hlr r hr
    have hc := hchild r hrl'
    rw [hbsU, hfind_unmarkAll, if_pos hrl']
    cases hfr : hfind a.boxes r with
    | none => rw [hfr] at hc; cases hc
    | some b =>
      rw [hfr] at hc
      simp only [Option.map_some'] at hc ⊢
      exact hc
  have hmark := markRoots_no_children a.cells fuel a.roots bsU hUchild
  set bsM := markAll bsU a.roots with hbsM
  have hnextU : chainNext bsU a.start l none = true := by
    rw [hbsU]
    unfold unmarkAll
    rw [chainNext_congr (fun t _ => hfind_foldl_hmod_map GcBox.next
      (fun b => { b with mark := false }) (fun _ => rfl) l a.boxes t)]
    exact hnext
  have hnextM : chainNext bsM a.start l none = true := by
    rw [hbsM]
    unfold markAll
    rw [chainNext_congr (fun t _ => hfind_foldl_hmod_map GcBox.next
      (fun b => { b with mark := true }) (fun _ => rfl) a.roots bsU t)]
    exact hnextU
  have hmkM : ∀ t ∈ l, (hfind bsM t).map GcBox.mark = some true := by
    intro t ht
    rw [hbsM, hfind_markAll, if_pos (hrl t ht), hbsU, hfind_unmarkAll, if_pos ht]
    cases hft : hfind a.boxes t with
    | none =>
      have := hchild t ht
      rw [hft] at this
      cases this
    | some b => rfl
  have hsweep := sweepLoop_all_marked a.cells l bsM a.start a.start 0 fuel hnextM hmkM hfuel
  refine ⟨{ a with boxes := bsM, cells := a.cells, start := a.start }, ?_, ?_⟩
  · show a.collect fuel = _
    unfold Arena.collect
    rw [hunm]
    dsimp only
    rw [hmark]
    dsimp only
    rw [hsweep]
    simp
  · intro t ht
    have hcell := hcells t ht
    have hM := hmkM t ht
    simp only [liveB, Gc.try_as_ref]
    rw [hcell]
    cases hfM : hfind bsM t with
    | none => rw [hfM] at hM; cases hM
    | some b => simp [hfM]

/-- Witness for C1 at a concrete input: two rooted allocations, N = 2. -/
theorem c1_root_retention_witness :
    ∃ a', (((Arena.new.root []).1.root []).1).collect 2
        = some (Except.ok (a', { total := 2, collected := 0 })) ∧
      ∀ t ∈ [1, 0], liveB a' t = true :=
  c1_root_retention (((Arena.new.root []).1.root []).1) [1, 0] 2 2
    (by decide) (by decide) (by decide) (by decide) (by decide) (by decide) (by decide)

/-- Claim C2: for every arena whose allocations form a well-formed list of
exactly N allocations, none rooted and holding no child handles,
`collect()` returns `total == N, collected == N` and iterating the arena
afterwards yields the empty sequence. -/
theorem c2_unrooted_reclamation (a : Arena) (l : List Nat) (N fuel : Nat)
    (hlist : IsList a l) (hlen : l.length = N)
    (_hchild : ∀ t ∈ l, (hfind a.boxes t).map GcBox.children = some [])
    (hroots : a.roots = [])
    (hfuel : N ≤ fuel) :
    ∃ a', a.collect fuel = some (Except.ok (a', { total := N, collected := N })) ∧
      a'.start = none ∧ iterList a'.boxes fuel a'.start = [] := by
  subst hlen
  obtain ⟨hnext, hprev, halloc, hnodup⟩ := hlist
  have hunm := unmarkLoop_spec l a.boxes a.start 0 fuel hnext hfuel
  set bsU := unmarkAll a.boxes l with hbsU
  have hnextU : chainNext bsU a.start l none = true := by
    rw [hbsU]
    unfold unmarkAll
    rw [chainNext_congr (fun t _ => hfind_foldl_hmod_map GcBox.next
      (fun b => { b with mark := false }) (fun _ => rfl) l a.boxes t)]
    exact hnext
  have hprevU : chainPrev bsU none l = true := by
    rw [hbsU]
    unfold unmarkAll
    rw [chainPrev_congr (fun t _ => hfind_foldl_hmod_map GcBox.prev
      (fun b => { b with mark := false }) (fun _ => rfl) l a.boxes t)]
    exact hprev
  have hmkU : ∀ t ∈ l, (hfind bsU t).map GcBox.mark = some false := by
    intro t ht
    rw [hbsU, hfind_unmarkAll, if_pos ht]
    have hs := chainNext_mem_isSome hnext t ht
    cases hft : hfind a.boxes t with
    | none => rw [hft] at hs; cases hs
    | some b => rfl
  obtain ⟨bs', cs', hsweep, hgone⟩ :=
    sweepLoop_all_unmarked l bsU a.cells a.start 0 fuel hnextU hprevU hnodup hmkU hfuel
  refine ⟨{ a with boxes := bs', cells := cs', start := none }, ?_, rfl, ?_⟩
  · have hmark2 : markRoots a.cells fuel bsU a.roots = some (Except.ok bsU) := by
      rw [hroots]
      rfl
    show a.collect fuel = _
    unfold Arena.collect
    rw [hunm]
    dsimp only
    rw [hmark2]
    dsimp only
    rw [hsweep]
    simp
  · show iterList bs' fuel none = []
    cases fuel <;> rfl

/-- Witness for C2 at a concrete input: two unrooted allocations, N = 2. -/
theorem c2_unrooted_reclamation_witness :
    ∃ a', (((Arena.new.gc []).1.gc []).1).collect 2
        = some (Except.ok (a', { total := 2, collected := 2 })) ∧
      a'.start = none ∧ iterList a'.boxes 2 a'.start = [] :=
  c2_unrooted_reclamation (((Arena.new.gc []).1.gc []).1) [1, 0] 2 2
    (by decide) (by decide) (by decide) (by decide) (by decide)

/-- Claim C10: `Arena::gc` inserts at the head of the list — the new
allocation becomes the arena head, with `prev = None` and `next` pointing
at the previous head, the previous head's `prev` rewired to it — so with a
well-formed list the iterator yields allocations in reverse allocation
order (the most recently allocated first); and the iterator fetches each
node's successor before yielding the node. -/
theorem c10_alloc_at_head_iter_reverse_order :
    (∀ (a : Arena) (ch : List Nat),
      (a.gc ch).2 = a.fresh ∧ (a.gc ch).1.start = some a.fresh) ∧
    (∀ (a : Arena) (ch : List Nat), a.start ≠ some a.fresh →
      hfind (a.gc ch).1.boxes a.fresh =
        some { mark := false, next := a.start, prev := none,
               alloc := a.fresh, children := ch }) ∧
    (∀ (a : Arena) (l ch : List Nat), IsList a l → FreshOK a →
      IsList (a.gc ch).1 (a.fresh :: l)) ∧
    (∀ (bs : Boxes) (entry : Option Nat) (l : List Nat) (fuel : Nat),
      chainNext bs entry l none = true → l.length ≤ fuel →
      iterList bs fuel entry = l) ∧
    (∀ (bs : Boxes) (fuel t : Nat) (b : GcBox), hfind bs t = some b →
      iterList bs (fuel + 1) (some t) = t :: iterList bs fuel b.next) :=
  ⟨fun _ _ => ⟨rfl, rfl⟩,
   fun a ch hs => (gc_spec a ch hs).2.2.2.2.2.1,
   fun _ _ ch hl hf => (gc_IsList hl hf ch).1,
   fun _ _ _ _ hc hf => iterList_of_chain hc hf,
   fun bs fuel t b hb => by simp only [iterList, hb]⟩

/-- Witness for C10 at concrete inputs: the second allocation of a fresh
arena heads the list, and iteration yields newest-first `[1, 0]`. -/
theorem c10_alloc_at_head_iter_reverse_order_witness :
    hfind (Arena.new.gc []).1.boxes 0 =
      some { mark := false, next := none, prev := none, alloc := 0, children := [] } ∧
    IsList ((Arena.new.gc []).1.gc []).1 [1, 0] ∧
    iterList (((Arena.new.gc []).1.gc []).1).boxes 2 (some 1) = [1, 0] :=
  ⟨c10_alloc_at_head_iter_reverse_order.2.1 Arena.new [] (by decide),
   c10_alloc_at_head_iter_reverse_order.2.2.1 (Arena.new.gc []).1 [0] []
     (by decide) (freshOKB_spec (by decide)),
   c10_alloc_at_head_iter_reverse_order.2.2.2.1
     (((Arena.new.gc []).1.gc []).1).boxes (some 1) [1, 0] 2 (by decide) (by decide)⟩

/-- Claim C8: after every sequence of arena operations (fresh arena,
allocation, rooted allocation, rooting, un-rooting, completed collection)
the allocations reachable by following `next` from the arena head form a
single well-formed doubly linked list: each node's `prev` names its
predecessor, the head's `prev` is none, and the id sequence is
duplicate-free (so the link structure has no cycle). Collect's sweep
preserves this: given fuel for the whole walk it removes exactly the boxes
left unmarked, splicing their neighbours' links around them and moving the
pending head past them when they headed the list, while every marked box
keeps its mark, value and backlink, and the surviving ids again form a
well-formed chain. -/
theorem c8_allocation_list_invariant :
    (∀ a : Arena, Reaches a → ∃ l, IsList a l) ∧
    (∀ (bs : Boxes) (cs : Cells) (l : List Nat) (fuel col : Nat),
      chainNext bs l.head? l none = true →
      chainPrev bs none l = true →
      l.Nodup →
      l.length ≤ fuel →
      ∃ bs' cs',
        sweepLoop fuel bs cs l.head? l.head? col
          = (bs', cs',
             (l.filter (fun t => markedB bs t)).head?,
             col + (l.filter (fun t => ! markedB bs t)).length) ∧
        chainNext bs' (l.filter (fun t => markedB bs t)).head?
          (l.filter (fun t => markedB bs t)) none = true ∧
        chainPrev bs' none (l.filter (fun t => markedB bs t)) = true ∧
        (l.filter (fun t => markedB bs t)).Nodup ∧
        (∀ t ∈ l, markedB bs t = true →
          (hfind bs' t).map GcBox.mark = (hfind bs t).map GcBox.mark ∧
          (hfind bs' t).map GcBox.children = (hfind bs t).map GcBox.children ∧
          (hfind bs' t).map GcBox.alloc = (hfind bs t).map GcBox.alloc) ∧
        (∀ t ∈ l, markedB bs t = false → hfind bs' t = none)) := by
  constructor
  · intro a h
    obtain ⟨l, hl, -⟩ := Reaches_IsList a h
    exact ⟨l, hl⟩
  · intro bs cs l fuel col h1 h2 h3 hfl
    obtain ⟨r1, r2, bs', cs', hsp, hfu, htup, hcn, hcp, hnd, hag, hrm⟩ :=
      sweepLoop_general l fuel [] bs cs col (by simpa using h1) (by simpa using h2)
        (by simpa using h3) (fun t ht => absurd ht (List.not_mem_nil t))
    have hr2 : r2 = [] := hfu hfl
    subst hr2
    rw [List.append_nil] at hsp
    subst hsp
    simp only [List.nil_append, List.append_nil] at htup hcn hcp hnd hag
    refine ⟨bs', cs', htup, hcn, hcp, hnd, ?_, hrm⟩
    intro t ht hm
    exact hag t (List.mem_filter.mpr ⟨ht, hm⟩)

/-- Witness for C8: the arena reached by allocating twice (the younger
rooted) and collecting once carries a well-formed allocation list. -/
theorem c8_allocation_list_invariant_witness :
    ∃ l, IsList c8Demo l :=
  c8_allocation_list_invariant.1 c8Demo
    (Reaches.collect c8Base c8Demo 10 c8Col
      (Reaches.root (Arena.new.gc []).1 [] (Reaches.gc Arena.new [] Reaches.new))
      (by decide))

end TracingGc
